import Mathlib

/-!
# Verification of the Shopify-to-Bloomreach reconstruction and normalization core

Shallow embedding of `src/job/bloomreach_products.py` and
`src/job/shopify_products.py`.  Strings are embedded as `List Char`
(Python `str` values are sequences of Unicode code points), JSON values
as the inductive `JVal`, Python `dict`s as association lists with
first-insertion key order and last-write-wins values (`dictOf` /
`updAssoc`), and fallible Python code (code that may raise) as
`Except Unit`-valued functions.
-/

abbrev Str := List Char

/-- Model of `unicodedata.normalize('NFKD', ·)` acting on one code point:
ASCII code points are NFKD-invariant and map to themselves; a small table
covers common pre-composed characters; any other non-ASCII code point is
kept as itself (it is then removed by the ASCII `encode(..., 'ignore')`
filter in `toAscii`, which is the behaviour of the source for
non-decomposable characters). -/
def nfkdDecomp (c : Char) : List Char :=
  if c.toNat < 128 then [c]
  else if c = 'é' then ['e', '́']
  else if c = 'è' then ['e', '̀']
  else if c = 'ü' then ['u', '̈']
  else if c = 'ñ' then ['n', '̃']
  else [c]

/-- Model of
`unicodedata.normalize('NFKD', key).encode('ASCII', 'ignore').decode('ASCII')`
(line 28 of `bloomreach_products.py`): NFKD-decompose every code point,
then drop every non-ASCII code point. -/
def toAscii (s : Str) : Str :=
  (s.flatMap nfkdDecomp).filter (fun c => c.toNat < 128)

/-- `[a-zA-Z0-9]` : the character class kept (besides whitespace) by the
regex substitution on line 31 of `bloomreach_products.py`. -/
def isAsciiAlnum (c : Char) : Bool :=
  (97 ≤ c.toNat && c.toNat ≤ 122) || (65 ≤ c.toNat && c.toNat ≤ 90) ||
    (48 ≤ c.toNat && c.toNat ≤ 57)

/-- Model of the characters matched by Python's `\s` regex class and by
`str.isspace` (the input of interest here is ASCII after `toAscii`;
the non-ASCII whitespace code points are included for `str.strip()`
fidelity). -/
def isPyWs (c : Char) : Bool :=
  c.toNat ∈ [9, 10, 11, 12, 13, 28, 29, 30, 31, 32, 133, 160, 0x1680,
    0x2028, 0x2029, 0x202F, 0x205F, 0x3000] ||
  (0x2000 ≤ c.toNat && c.toNat ≤ 0x200A)

/-- One character of `re.sub(r'[^a-zA-Z0-9\s]', '_', s)`
(line 31 of `bloomreach_products.py`). -/
def keepAlnumWs (c : Char) : Char :=
  if isAsciiAlnum c || isPyWs c then c else '_'

/-- One character of `s.replace(' ', '_')` (line 34). -/
def spaceToU (c : Char) : Char :=
  if c = ' ' then '_' else c

/-- `re.sub(r'_+', '_', s)` (line 37): collapse every run of
underscores to a single underscore. -/
def squeezeU : Str → Str
  | [] => []
  | [c] => [c]
  | a :: b :: rest =>
    if a = '_' && b = '_' then squeezeU (b :: rest)
    else a :: squeezeU (b :: rest)

/-- Drop leading underscores. -/
def dropU (s : Str) : Str := s.dropWhile (fun c => c = '_')

/-- `s.strip('_')` (line 40): drop leading and trailing underscores. -/
def stripU (s : Str) : Str := ((dropU s).reverse.dropWhile (fun c => c = '_')).reverse

/-- ASCII digit test: models `str.isdigit` on the ASCII-only strings that
reach line 43 of `bloomreach_products.py`. -/
def isAsciiDigit (c : Char) : Bool := 48 ≤ c.toNat && c.toNat ≤ 57

/-- The composition of lines 28-40 of `normalize_key`
(de-accent + ASCII filter, regex substitution, space replacement,
underscore collapsing, underscore stripping). -/
def nkCore (s : Str) : Str :=
  stripU (squeezeU ((toAscii s).map keepAlnumWs |>.map spaceToU))

/-- `normalize_key` of `bloomreach_products.py` (lines 18-50). -/
def normalize_key (s : Str) : Str :=
  let e := nkCore s
  let f := match e with
    | c :: _ => if isAsciiDigit c then '_' :: e else e
    | [] => []
  if f.isEmpty then "attribute".toList else f

example : normalize_key "Hello World!".toList = "Hello_World".toList := by decide
example : normalize_key "9lives".toList = "_9lives".toList := by decide
example : normalize_key "  ".toList = "attribute".toList := by decide
example : normalize_key "a--b".toList = "a_b".toList := by decide
example : normalize_key ['a', '\t', 'b'] = ['a', '\t', 'b'] := by decide

/-! ## Properties of the key normalizer -/

/-- Characters that can occur in the output of `nkCore`: ASCII
alphanumerics, the underscore, and ASCII non-space whitespace (the
whitespace kept by the `\s` class but not replaced on line 34, which only
replaces `' '`). -/
def nkChar (c : Char) : Bool :=
  isAsciiAlnum c || c = '_' || (isPyWs c && !(c = ' ') && c.toNat < 128)

/-- No two adjacent underscores. -/
def noDbl (a b : Char) : Prop := ¬(a = '_' ∧ b = '_')

theorem nkChar_lt {c : Char} (h : nkChar c = true) : c.toNat < 128 := by
  simp only [nkChar, isAsciiAlnum, Bool.or_eq_true, Bool.and_eq_true,
    decide_eq_true_eq] at h
  rcases h with (h | h) | h
  · omega
  · subst h; decide
  · exact h.2

theorem mem_toAscii_lt {c : Char} {s : Str} (h : c ∈ toAscii s) :
    c.toNat < 128 := by
  simp only [toAscii, List.mem_filter, decide_eq_true_eq] at h
  exact h.2

theorem squeezeU_cons (b : Char) (l : Str) :
    ∃ t, squeezeU (b :: l) = b :: t := by
  induction l generalizing b with
  | nil => exact ⟨[], rfl⟩
  | cons c r ih =>
    by_cases h : b = '_' ∧ c = '_'
    · obtain ⟨hb, hc⟩ := h
      subst hb; subst hc
      obtain ⟨t, ht⟩ := ih '_'
      refine ⟨t, ?_⟩
      rw [squeezeU, if_pos (by decide), ht]
    · refine ⟨squeezeU (c :: r), ?_⟩
      have : (decide (b = '_') && decide (c = '_')) = false := by
        rcases not_and_or.mp h with h' | h' <;> simp [h']
      simp [squeezeU, this]

theorem squeezeU_chain (l : Str) : List.Chain' noDbl (squeezeU l) := by
  induction l using squeezeU.induct with
  | case1 => simp [squeezeU]
  | case2 c => simp [squeezeU]
  | case3 a b rest h ih =>
    rw [squeezeU, if_pos h]
    exact ih
  | case4 a b rest h ih =>
    rw [squeezeU, if_neg h]
    obtain ⟨t, ht⟩ := squeezeU_cons b rest
    rw [ht] at ih ⊢
    refine List.chain'_cons'.mpr ⟨?_, ih⟩
    intro y hy
    simp only [List.head?_cons, Option.mem_def, Option.some.injEq] at hy
    subst hy
    intro ⟨ha, hb⟩
    simp [ha, hb] at h

theorem squeezeU_id {l : Str} (h : List.Chain' noDbl l) : squeezeU l = l := by
  induction l using squeezeU.induct with
  | case1 => rfl
  | case2 c => rfl
  | case3 a b rest hab ih =>
    exfalso
    simp only [Bool.and_eq_true, decide_eq_true_eq] at hab
    exact (List.chain'_cons.mp h).1 hab
  | case4 a b rest hab ih =>
    rw [squeezeU, if_neg hab, ih (List.chain'_cons.mp h).2]

theorem mem_squeezeU {c : Char} {l : Str} (h : c ∈ squeezeU l) : c ∈ l := by
  induction l using squeezeU.induct with
  | case1 => simp [squeezeU] at h
  | case2 d => simpa [squeezeU] using h
  | case3 a b rest hab ih =>
    rw [squeezeU, if_pos hab] at h
    exact List.mem_cons_of_mem _ (ih h)
  | case4 a b rest hab ih =>
    rw [squeezeU, if_neg hab] at h
    rcases List.mem_cons.mp h with h | h
    · exact h ▸ List.mem_cons_self _ _
    · exact List.mem_cons_of_mem _ (ih h)

theorem dropU_head (l : Str) : (dropU l).head? ≠ some '_' := by
  induction l with
  | nil => simp [dropU]
  | cons c r ih =>
    by_cases h : c = '_'
    · simpa [dropU, List.dropWhile_cons, h] using ih
    · simp [dropU, List.dropWhile_cons, h]

theorem mem_dropU {c : Char} {l : Str} (h : c ∈ dropU l) : c ∈ l :=
  (List.dropWhile_suffix _).sublist.subset h

theorem stripU_eq (s : Str) : stripU s = (dropU ((dropU s).reverse)).reverse := rfl

theorem mem_stripU {c : Char} {l : Str} (h : c ∈ stripU l) : c ∈ l := by
  rw [stripU_eq] at h
  rw [List.mem_reverse] at h
  have := mem_dropU h
  rw [List.mem_reverse] at this
  exact mem_dropU this

theorem getLast?_dropU (l : Str) (h : dropU l ≠ []) :
    (dropU l).getLast? = l.getLast? := by
  unfold dropU at *
  obtain ⟨pre, hpre⟩ := @List.dropWhile_suffix _ l (fun c => decide (c = '_'))
  conv_rhs => rw [← hpre]
  exact (List.getLast?_append_of_ne_nil _ h).symm

theorem stripU_head (s : Str) : (stripU s).head? ≠ some '_' := by
  rw [stripU_eq, List.head?_reverse]
  by_cases h : dropU ((dropU s).reverse) = []
  · simp [h]
  · rw [getLast?_dropU _ h, List.getLast?_reverse]
    exact dropU_head s

theorem stripU_last (s : Str) : (stripU s).getLast? ≠ some '_' := by
  rw [stripU_eq, List.getLast?_reverse]
  exact dropU_head _

theorem chain'_stripU {l : Str} (h : List.Chain' noDbl l) :
    List.Chain' noDbl (stripU l) := by
  have hflip : ∀ {m : Str}, List.Chain' noDbl m → List.Chain' (flip noDbl) m := by
    intro m hm
    exact hm.imp (fun {a b} hab => by
      intro ⟨h1, h2⟩; exact hab ⟨h2, h1⟩)
  rw [stripU_eq]
  apply List.chain'_reverse.mpr
  apply hflip
  apply List.Chain'.suffix _ (List.dropWhile_suffix _)
  apply List.chain'_reverse.mpr
  apply hflip
  exact List.Chain'.suffix h (List.dropWhile_suffix _)

theorem alnum_ne_space {c : Char} (h : isAsciiAlnum c = true) : ¬(c = ' ') := by
  intro hc; subst hc; simp [isAsciiAlnum] at h

theorem nkCore_chars (s : Str) : ∀ c ∈ nkCore s, nkChar c = true := by
  intro c hc
  have hc2 := mem_squeezeU (mem_stripU hc)
  simp only [List.mem_map] at hc2
  obtain ⟨b, ⟨a, ha, hab⟩, hbc⟩ := hc2
  have halt : a.toNat < 128 := mem_toAscii_lt ha
  subst hbc; subst hab
  by_cases h1 : isAsciiAlnum a = true
  · have hsp : ¬(a = ' ') := alnum_ne_space h1
    simp [keepAlnumWs, spaceToU, h1, hsp, nkChar]
  · by_cases h2 : isPyWs a = true
    · by_cases h3 : a = ' '
      · simp [keepAlnumWs, spaceToU, h1, h2, h3, nkChar]
      · simp [keepAlnumWs, spaceToU, h1, h2, h3, nkChar, halt]
    · simp [keepAlnumWs, spaceToU, h1, h2, nkChar,
        Bool.or_eq_true, Bool.and_eq_true]

theorem nkCore_chain (s : Str) : List.Chain' noDbl (nkCore s) :=
  chain'_stripU (squeezeU_chain _)

theorem nkCore_head (s : Str) : (nkCore s).head? ≠ some '_' := stripU_head _

theorem nkCore_last (s : Str) : (nkCore s).getLast? ≠ some '_' := stripU_last _

theorem toAscii_of_ascii {l : Str} (h : ∀ c ∈ l, c.toNat < 128) :
    toAscii l = l := by
  induction l with
  | nil => rfl
  | cons c r ih =>
    have hc : c.toNat < 128 := h c (List.mem_cons_self _ _)
    have hr := ih (fun d hd => h d (List.mem_cons_of_mem _ hd))
    simp only [toAscii, List.flatMap_cons, List.filter_append] at hr ⊢
    rw [nfkdDecomp, if_pos hc]
    simp only [List.filter_cons, decide_eq_true_eq, if_pos hc, List.filter_nil,
      List.singleton_append, List.cons_append, List.nil_append]
    rw [hr]

theorem keepAlnumWs_nk {c : Char} (h : nkChar c = true) : keepAlnumWs c = c := by
  simp only [nkChar, Bool.or_eq_true, Bool.and_eq_true, decide_eq_true_eq] at h
  rcases h with (h | h) | h
  · simp [keepAlnumWs, h]
  · subst h; rfl
  · simp [keepAlnumWs, h.1.1]

theorem spaceToU_nk {c : Char} (h : nkChar c = true) : spaceToU c = c := by
  simp only [nkChar, Bool.or_eq_true, Bool.and_eq_true, decide_eq_true_eq,
    Bool.not_eq_true', decide_eq_false_iff_not] at h
  rcases h with (h | h) | h
  · simp [spaceToU, alnum_ne_space h]
  · subst h; rfl
  · simp [spaceToU, h.1.2]

theorem dropU_id {l : Str} (h : l.head? ≠ some '_') : dropU l = l := by
  cases l with
  | nil => rfl
  | cons c r =>
    have : ¬(c = '_') := by
      intro hc; exact h (by simp [hc])
    simp [dropU, List.dropWhile_cons, this]

theorem stripU_id {l : Str} (h1 : l.head? ≠ some '_')
    (h2 : l.getLast? ≠ some '_') : stripU l = l := by
  rw [stripU_eq, dropU_id h1, dropU_id (by rwa [List.head?_reverse]),
    List.reverse_reverse]

/-- Self-reproduction of the normalization pipeline core on its own
outputs: `nkCore` is the identity on any output of `nkCore`. -/
theorem nkCore_self {e : Str} (hch : ∀ c ∈ e, nkChar c = true)
    (hc : List.Chain' noDbl e) (hh : e.head? ≠ some '_')
    (hl : e.getLast? ≠ some '_') : nkCore e = e := by
  unfold nkCore
  rw [toAscii_of_ascii (fun c hcm => nkChar_lt (hch c hcm))]
  rw [List.map_congr_left (fun a ha => keepAlnumWs_nk (hch a ha)), List.map_id']
  rw [List.map_congr_left (fun a ha => spaceToU_nk (hch a ha)), List.map_id']
  rw [squeezeU_id hc, stripU_id hh hl]

theorem digit_ne_underscore {c : Char} (h : isAsciiDigit c = true) :
    ¬(c = '_') := by
  intro hc; subst hc; simp [isAsciiDigit] at h

theorem digit_nkChar {c : Char} (h : isAsciiDigit c = true) : nkChar c = true := by
  simp only [isAsciiDigit, Bool.and_eq_true, decide_eq_true_eq] at h
  simp only [nkChar, isAsciiAlnum, Bool.or_eq_true, Bool.and_eq_true,
    decide_eq_true_eq]
  exact Or.inl (Or.inl (Or.inr ⟨h.1, h.2⟩))

/-- Idempotence of the key normalizer (helper; the claim-level statement
is `normalize_key_idempotent`). -/
theorem nk_idem (s : Str) :
    normalize_key (normalize_key s) = normalize_key s := by
  have hch := nkCore_chars s
  have hcn := nkCore_chain s
  have hhd := nkCore_head s
  have hlt := nkCore_last s
  rcases he : nkCore s with _ | ⟨c, rest⟩
  · have h1 : normalize_key s = "attribute".toList := by
      simp [normalize_key, he]
    rw [h1]; decide
  · rw [he] at hch hcn hhd hlt
    by_cases hd : isAsciiDigit c = true
    · have h1 : normalize_key s = '_' :: c :: rest := by
        simp [normalize_key, he, hd]
      rw [h1]
      have hch' : ∀ d ∈ '_' :: c :: rest, nkChar d = true := by
        intro d hdm
        rcases List.mem_cons.mp hdm with h' | h'
        · subst h'; decide
        · exact hch d h'
      have hcn' : List.Chain' noDbl ('_' :: c :: rest) :=
        List.chain'_cons.mpr ⟨fun ⟨_, hc2⟩ => digit_ne_underscore hd hc2, hcn⟩
      have hasc : toAscii ('_' :: c :: rest) = '_' :: c :: rest :=
        toAscii_of_ascii (fun d hdm => nkChar_lt (hch' d hdm))
      have hcore : nkCore ('_' :: c :: rest) = c :: rest := by
        unfold nkCore
        rw [hasc,
          List.map_congr_left (fun a ha => keepAlnumWs_nk (hch' a ha)), List.map_id',
          List.map_congr_left (fun a ha => spaceToU_nk (hch' a ha)), List.map_id',
          squeezeU_id hcn']
        rw [stripU_eq]
        have h2 : dropU ('_' :: c :: rest) = c :: rest := by
          rw [show dropU ('_' :: c :: rest) = dropU (c :: rest) from by
            simp [dropU, List.dropWhile_cons]]
          exact dropU_id (by simpa using digit_ne_underscore hd)
        rw [h2, dropU_id (by rwa [List.head?_reverse]), List.reverse_reverse]
      simp [normalize_key, hcore, hd]
    · have h1 : normalize_key s = c :: rest := by
        simp [normalize_key, he, hd]
      rw [h1]
      have hcore : nkCore (c :: rest) = c :: rest := nkCore_self hch hcn hhd hlt
      simp [normalize_key, hcore, hd]

/-- Claim C9: the key normalizer is idempotent —
`normalize_key (normalize_key x) = normalize_key x` for every input
string. -/
theorem normalize_key_idempotent (x : Str) :
    normalize_key (normalize_key x) = normalize_key x := nk_idem x

/-- Claim C3 (code bug): the key normalizer violates its whitespace
contract on tab characters. On the input "a" ++ tab ++ "b", the regex of
line 31 keeps the tab (the class matched is only non-alphanumeric
non-whitespace) and line 34 replaces only the literal space character, so
`normalize_key` returns its input unchanged and the tab survives: the
output matches neither the shape underscore-then-alphanumerics nor the
claim that every whitespace run (tabs and newlines included) is replaced
by a single underscore. -/
theorem normalize_key_whitespace_bug :
    normalize_key ['a', '\t', 'b'] = ['a', '\t', 'b'] ∧
    '\t' ∈ normalize_key ['a', '\t', 'b'] ∧
    isAsciiAlnum '\t' = false ∧ ¬('\t' = '_') ∧ isPyWs '\t' = true := by
  decide

/-! ## JSON values, Python truthiness, and the Python dict model -/

/-- A JSON value (the closed tagged-variant type over which the pipeline
operates; Python numbers are modelled as rationals). -/
inductive JVal where
  | null
  | bool (b : Bool)
  | num (q : ℚ)
  | str (s : Str)
  | arr (xs : List JVal)
  | obj (fields : List (Str × JVal))

mutual

/-- Structural Boolean equality on `JVal` (used to derive decidable
equality; this is not Python's `==`, which is `pyEq` below). -/
def beqJ : JVal → JVal → Bool
  | .null, .null => true
  | .bool a, .bool b => a == b
  | .num a, .num b => a == b
  | .str a, .str b => a == b
  | .arr a, .arr b => beqL a b
  | .obj a, .obj b => beqO a b
  | _, _ => false

def beqL : List JVal → List JVal → Bool
  | [], [] => true
  | x :: xs, y :: ys => beqJ x y && beqL xs ys
  | _, _ => false

def beqO : List (Str × JVal) → List (Str × JVal) → Bool
  | [], [] => true
  | (k1, v1) :: xs, (k2, v2) :: ys => decide (k1 = k2) && beqJ v1 v2 && beqO xs ys
  | _, _ => false

end

theorem beq_all :
    (∀ v w, beqJ v w = true ↔ v = w) ∧
      (∀ x y : List (Str × JVal), beqO x y = true ↔ x = y) ∧
      (∀ a b : List JVal, beqL a b = true ↔ a = b) := by
  refine beqJ.mutual_induct
    (fun v w => beqJ v w = true ↔ v = w)
    (fun x y => beqO x y = true ↔ x = y)
    (fun a b => beqL a b = true ↔ a = b)
    ?_ ?_ ?_ ?_ ?_ ?_ ?_ ?_ ?_ ?_ ?_ ?_ ?_
  · simp [beqJ]
  · intro a b; simp [beqJ]
  · intro a b; simp [beqJ]
  · intro a b; simp [beqJ]
  · intro a b ih; simp [beqJ, ih]
  · intro a b ih; simp [beqJ, ih]
  · intro t x h1 h2 h3 h4 h5 h6
    cases t <;> cases x <;>
      first
        | exact (h1 rfl rfl).elim
        | exact (h2 _ _ rfl rfl).elim
        | exact (h3 _ _ rfl rfl).elim
        | exact (h4 _ _ rfl rfl).elim
        | exact (h5 _ _ rfl rfl).elim
        | exact (h6 _ _ rfl rfl).elim
        | simp [beqJ]
  · simp [beqL]
  · intro x xs y ys ih1 ih2; simp [beqL, ih1, ih2]
  · intro t x h1 h2
    cases t <;> cases x <;>
      first
        | exact (h1 rfl rfl).elim
        | exact (h2 _ _ _ _ rfl rfl).elim
        | simp [beqL]
  · simp [beqO]
  · intro k1 v1 xs k2 v2 ys ih1 ih2
    simp only [beqO, Bool.and_eq_true, decide_eq_true_eq, ih1, ih2,
      List.cons.injEq, Prod.mk.injEq]
  · intro t x h1 h2
    cases t with
    | nil =>
      cases x with
      | nil => exact (h1 rfl rfl).elim
      | cons p ys => simp [beqO]
    | cons p xs =>
      cases x with
      | nil => cases p; simp [beqO]
      | cons q ys =>
        cases p; cases q
        exact (h2 _ _ _ _ _ _ rfl rfl).elim

instance : DecidableEq JVal := fun v w => decidable_of_iff _ (beq_all.1 v w)

/-- Python dictionaries are modelled as association lists in key
insertion order.  `lookupA` is `d[k]` / `d.get(k)` (first matching key). -/
def lookupA {α β : Type} [DecidableEq α] : List (α × β) → α → Option β
  | [], _ => none
  | (k', v) :: rest, k => if k' = k then some v else lookupA rest k

/-- `d[k] = v` on a Python dict: update in place if the key exists
(keeping its position), otherwise append at the end. -/
def updA {α β : Type} [DecidableEq α] : List (α × β) → α → β → List (α × β)
  | [], k, v => [(k, v)]
  | (k', v') :: rest, k, v =>
    if k' = k then (k', v) :: rest else (k', v') :: updA rest k v

/-- `del d[k]` on a Python dict. -/
def delA {α β : Type} [DecidableEq α] : List (α × β) → α → List (α × β)
  | [], _ => []
  | (k', v') :: rest, k => if k' = k then rest else (k', v') :: delA rest k

/-- `dict(items)`: build a dict from a pair list — the key keeps its first
insertion position, the value is the last one written. -/
def dictOf {α β : Type} [DecidableEq α] (l : List (α × β)) : List (α × β) :=
  l.foldl (fun acc p => updA acc p.1 p.2) []

/-- `k in d` on a Python dict. -/
def memA {α β : Type} [DecidableEq α] (l : List (α × β)) (k : α) : Bool :=
  (lookupA l k).isSome

abbrev Assoc := List (Str × JVal)

/-- Python truthiness of a JSON value. -/
def pyTruthy : JVal → Bool
  | .null => false
  | .bool b => b
  | .num q => decide (q ≠ 0)
  | .str s => !s.isEmpty
  | .arr l => !l.isEmpty
  | .obj l => !l.isEmpty

/-- Python `str.strip()` with no argument: remove leading and trailing
whitespace. -/
def pyStrip (s : Str) : Str :=
  ((s.dropWhile isPyWs).reverse.dropWhile isPyWs).reverse

/-- `is_empty_value` of `bloomreach_products.py` (lines 52-60): `None`,
whitespace-only text, and empty collections are empty. -/
def is_empty_value : JVal → Bool
  | .null => true
  | .str s => (pyStrip s).isEmpty
  | .arr l => l.isEmpty
  | .obj l => l.isEmpty
  | .bool _ => false
  | .num _ => false

/-- Value of an ASCII digit string. -/
def digitsNat (l : Str) : Nat :=
  l.foldl (fun a c => a * 10 + (c.toNat - 48)) 0

/-- Model of Python `float(string)` restricted to plain decimal literals
(optional sign, digits, optional fractional part, surrounding
whitespace); other texts fail to parse.  The parsed value is an exact
rational (binary floating-point rounding is not modelled). -/
def str2float (s : Str) : Option ℚ :=
  let t := pyStrip s
  let sgnRest : Bool × Str := match t with
    | '-' :: r => (true, r)
    | '+' :: r => (false, r)
    | r => (false, r)
  let ip := sgnRest.2.takeWhile isAsciiDigit
  let rest2 := sgnRest.2.dropWhile isAsciiDigit
  let mag : Option ℚ := match rest2 with
    | [] => if ip.isEmpty then none else some (mkRat (digitsNat ip) 1)
    | '.' :: frac =>
      if frac.all isAsciiDigit && !(ip.isEmpty && frac.isEmpty) then
        some (mkRat (digitsNat ip * 10 ^ frac.length + digitsNat frac) (10 ^ frac.length))
      else none
    | _ => none
  mag.map (fun q => if sgnRest.1 then Rat.neg q else q)

/-- `convert_to_float` of `bloomreach_products.py` (lines 71-78):
`None` maps to `None`; `float(value)` succeeds on numbers, booleans and
numeric strings and fails (returning `None`) otherwise. -/
def convert_to_float : JVal → Option ℚ
  | .null => none
  | .bool b => some (if b then 1 else 0)
  | .num q => some q
  | .str s => str2float s
  | .arr _ => none
  | .obj _ => none

/-- `needle` is a leading piece of `hay`. -/
def leadsWith : Str → Str → Bool
  | [], _ => true
  | _ :: _, [] => false
  | a :: as, b :: bs => a = b && leadsWith as bs

/-- Python's substring test `needle in hay`. -/
def hasSub (needle hay : Str) : Bool :=
  match hay with
  | [] => needle.isEmpty
  | _ :: t => leadsWith needle hay || hasSub needle t

/-- The part of a string after its last `/` — `s.split('/')[-1]`. -/
def lastSlashComponent (s : Str) : Str :=
  (s.reverse.takeWhile (fun c => !(c = '/'))).reverse

/-- `extract_id_from_gid` of `bloomreach_products.py` (lines 62-69):
for truthy strings containing `gid://`, keep the text after the last
slash; anything else is returned unchanged. -/
def extract_id_from_gid (v : JVal) : JVal :=
  match v with
  | .str s =>
    if pyTruthy (.str s) && hasSub "gid://".toList s then .str (lastSlashComponent s)
    else .str s
  | w => w

example : extract_id_from_gid (.str "gid://shopify/ProductVariant/999".toList) =
    .str "999".toList := by decide
example : convert_to_float (.str "12.50".toList) = some (mkRat 25 2) := by decide
example : convert_to_float (.str "abc".toList) = none := by decide

/-! ## The value flattener (`flatten_dict`, lines 80-117) -/

/-- Key composition `f"{parent_key}{sep}{k}" if parent_key else k` of
line 83 of `bloomreach_products.py`, with the default separator `'_'`. -/
def joinKey (parent k : Str) : Str :=
  if parent.isEmpty then k else parent ++ '_' :: k

/-- One step of the `defaultdict(list)` grouping of lines 93-99: append a
value under a field key, creating the entry at the end on first touch. -/
def addGrouped : List (Str × List JVal) → Str → JVal → List (Str × List JVal)
  | [], k, v => [(k, [v])]
  | (k', vs) :: rest, k, v =>
    if k' = k then (k', vs ++ [v]) :: rest else (k', vs) :: addGrouped rest k v

/-- Grouping loop of lines 95-99: for each array element that is a map,
append each of its non-empty field values under the field name. -/
def groupFields : List JVal → List (Str × List JVal) → List (Str × List JVal)
  | [], g => g
  | .obj fs :: rest, g =>
    groupFields rest
      (fs.foldl (fun g2 p => if is_empty_value p.2 then g2 else addGrouped g2 p.1 p.2) g)
  | _ :: rest, g => groupFields rest g

/-- Lines 92-105 of `flatten_dict`: field transposition of an
array-of-maps value — one array attribute per grouped field name that
collected at least one value. -/
def transposeArray (newKey : Str) (elems : List JVal) : List (Str × JVal) :=
  (groupFields elems []).filterMap fun p =>
    if p.2.isEmpty then none
    else some (normalize_key (newKey ++ '_' :: p.1), JVal.arr p.2)

mutual

/-- The `items` list accumulated by `flatten_dict` (lines 81-115), before
the final `dict(items)`. -/
def flattenItems : List (Str × JVal) → Str → List (Str × JVal)
  | [], _ => []
  | (k, v) :: rest, parent =>
    flattenOne (normalize_key (joinKey parent k)) v ++ flattenItems rest parent

/-- The items contributed by one key/value pair of `flatten_dict`, given
the already-normalized composed key (lines 86-115). -/
def flattenOne (newKey : Str) : JVal → List (Str × JVal)
  | JVal.obj sub =>
    (dictOf (flattenItems sub newKey)).filterMap
      fun p => if is_empty_value p.2 then none else some (normalize_key p.1, p.2)
  | JVal.arr [] => []
  | JVal.arr (x :: xs) =>
    (match x with
     | JVal.obj _ => transposeArray newKey (x :: xs)
     | _ => [(newKey, JVal.arr (x :: xs))])
  | JVal.str s =>
    (if hasSub "amount".toList newKey || hasSub "price".toList newKey then
       (match str2float s with
        | some q =>
          if is_empty_value (JVal.num q) then [] else [(newKey, JVal.num q)]
        | none => [])
     else if is_empty_value (JVal.str s) then []
     else [(newKey, JVal.str s)])
  | w => if is_empty_value w then [] else [(newKey, w)]

end

/-- `flatten_dict` of `bloomreach_products.py` (lines 80-117): flatten a
nested attribute map; the returned dict keeps each key's first position
with its last written value. -/
def flatten_dict (d : Assoc) (parent : Str) : Assoc :=
  dictOf (flattenItems d parent)

example :
    flatten_dict [("a b".toList, .obj [("c".toList, .num (mkRat 3 1))])] [] =
      [("a_b_c".toList, .num (mkRat 3 1))] := by decide
example :
    flatten_dict [("price".toList, .str "4.5".toList)] [] =
      [("price".toList, .num (mkRat 9 2))] := by decide
example :
    flatten_dict
      [("k".toList, .arr [.obj [("f".toList, .num 1), ("g".toList, .null)],
                          .obj [("f".toList, .num 2)]])] [] =
      [("k_f".toList, .arr [.num 1, .num 2])] := by decide

/-! ## Flattener invariants (claims C4 and C5) -/

theorem mem_updA {α β : Type} [DecidableEq α] {p : α × β} :
    ∀ {l : List (α × β)} {k : α} {v : β}, p ∈ updA l k v → p ∈ l ∨ p = (k, v) := by
  intro l
  induction l with
  | nil => intro k v h; simp [updA] at h; simp [h]
  | cons q rest ih =>
    intro k v h
    obtain ⟨k', v'⟩ := q
    rw [updA] at h
    by_cases hk : k' = k
    · rw [if_pos hk] at h
      rcases List.mem_cons.mp h with h | h
      · subst hk; right; simpa using h
      · exact Or.inl (List.mem_cons_of_mem _ h)
    · rw [if_neg hk] at h
      rcases List.mem_cons.mp h with h | h
      · exact Or.inl (h ▸ List.mem_cons_self _ _)
      · rcases ih h with h | h
        · exact Or.inl (List.mem_cons_of_mem _ h)
        · exact Or.inr h

theorem mem_foldl_updA {α β : Type} [DecidableEq α] {p : α × β} :
    ∀ {l : List (α × β)} {acc : List (α × β)},
      p ∈ l.foldl (fun a q => updA a q.1 q.2) acc → p ∈ acc ∨ p ∈ l := by
  intro l
  induction l with
  | nil => intro acc h; exact Or.inl h
  | cons q rest ih =>
    intro acc h
    rw [List.foldl_cons] at h
    rcases ih h with h | h
    · rcases mem_updA h with h | h
      · exact Or.inl h
      · right
        rw [h]
        exact List.mem_cons_self _ _
    · exact Or.inr (List.mem_cons_of_mem _ h)

theorem mem_dictOf {α β : Type} [DecidableEq α] {p : α × β} {l : List (α × β)}
    (h : p ∈ dictOf l) : p ∈ l := by
  rcases mem_foldl_updA h with h | h
  · simp at h
  · exact h

theorem flattenOne_props {nk : Str} (hnk : normalize_key nk = nk) (v : JVal) :
    ∀ p ∈ flattenOne nk v, is_empty_value p.2 = false ∧ normalize_key p.1 = p.1 := by
  intro p hp
  match v with
  | JVal.obj sub =>
    rw [flattenOne] at hp
    rw [List.mem_filterMap] at hp
    obtain ⟨q, _, hq2⟩ := hp
    by_cases he : is_empty_value q.2 = true
    · simp [he] at hq2
    · rw [if_neg he] at hq2
      obtain ⟨⟩ := hq2
      exact ⟨by simpa using he, nk_idem _⟩
  | JVal.arr [] => rw [flattenOne] at hp; simp at hp
  | JVal.arr (JVal.obj f :: xs) =>
    rw [flattenOne] at hp
    rw [transposeArray, List.mem_filterMap] at hp
    obtain ⟨q, _, hq2⟩ := hp
    by_cases he : q.2.isEmpty = true
    · simp [he] at hq2
    · rw [if_neg he] at hq2
      obtain ⟨⟩ := hq2
      refine ⟨?_, nk_idem _⟩
      simpa [is_empty_value] using he
  | JVal.arr (JVal.null :: xs) =>
    simp only [flattenOne, List.mem_singleton] at hp
    subst hp; exact ⟨by simp [is_empty_value], hnk⟩
  | JVal.arr (JVal.bool b :: xs) =>
    simp only [flattenOne, List.mem_singleton] at hp
    subst hp; exact ⟨by simp [is_empty_value], hnk⟩
  | JVal.arr (JVal.num q0 :: xs) =>
    simp only [flattenOne, List.mem_singleton] at hp
    subst hp; exact ⟨by simp [is_empty_value], hnk⟩
  | JVal.arr (JVal.str s0 :: xs) =>
    simp only [flattenOne, List.mem_singleton] at hp
    subst hp; exact ⟨by simp [is_empty_value], hnk⟩
  | JVal.arr (JVal.arr a0 :: xs) =>
    simp only [flattenOne, List.mem_singleton] at hp
    subst hp; exact ⟨by simp [is_empty_value], hnk⟩
  | JVal.str s =>
    rw [flattenOne] at hp
    by_cases hpk : (hasSub "amount".toList nk || hasSub "price".toList nk) = true
    · rw [if_pos hpk] at hp
      match hq : str2float s with
      | some q =>
        rw [hq] at hp
        simp only [is_empty_value, if_neg Bool.false_ne_true] at hp
        rcases List.mem_cons.mp hp with h | h
        · subst h; exact ⟨by simp [is_empty_value], hnk⟩
        · simp at h
      | none => rw [hq] at hp; simp at hp
    · rw [if_neg hpk] at hp
      by_cases he : is_empty_value (JVal.str s) = true
      · rw [if_pos he] at hp; simp at hp
      · rw [if_neg he] at hp
        rcases List.mem_cons.mp hp with h | h
        · subst h; exact ⟨by simpa using he, hnk⟩
        · simp at h
  | JVal.null => simp [flattenOne, is_empty_value] at hp
  | JVal.bool b =>
    simp only [flattenOne, is_empty_value, if_neg Bool.false_ne_true,
      List.mem_singleton] at hp
    subst hp; exact ⟨by simp [is_empty_value], hnk⟩
  | JVal.num q0 =>
    simp only [flattenOne, is_empty_value, if_neg Bool.false_ne_true,
      List.mem_singleton] at hp
    subst hp; exact ⟨by simp [is_empty_value], hnk⟩

theorem flattenItems_props (d : Assoc) (parent : Str) :
    ∀ p ∈ flattenItems d parent,
      is_empty_value p.2 = false ∧ normalize_key p.1 = p.1 := by
  induction d with
  | nil => intro p hp; rw [flattenItems] at hp; simp at hp
  | cons kv rest ih =>
    intro p hp
    obtain ⟨k, v⟩ := kv
    rw [flattenItems] at hp
    rcases List.mem_append.mp hp with h | h
    · exact flattenOne_props (nk_idem _) v p h
    · exact ih p h

/-- Claim C4: for every attribute tree, every value in the flat map
returned by `flatten_dict` is non-empty (never null, never an empty or
whitespace-only string, never an empty array or map), and every key of
the map is a fixed point of `normalize_key`. -/
theorem flatten_dict_clean (d : Assoc) (parent : Str) (p : Str × JVal)
    (hp : p ∈ flatten_dict d parent) :
    is_empty_value p.2 = false ∧ normalize_key p.1 = p.1 :=
  flattenItems_props d parent p (mem_dictOf hp)

/-- Witness for `flatten_dict_clean` at a concrete attribute tree. -/
theorem flatten_dict_clean_witness :
    is_empty_value (JVal.num (mkRat 3 1)) = false ∧
      normalize_key "a_b_c".toList = "a_b_c".toList :=
  flatten_dict_clean [("a b".toList, .obj [("c".toList, .num (mkRat 3 1))])] []
    ("a_b_c".toList, .num (mkRat 3 1)) (by decide)

/-- Field names (in order of occurrence) carrying a non-empty value in
some map element of the array. -/
def nonEmptyFieldNames : List JVal → List Str
  | [] => []
  | .obj fs :: rest =>
    (fs.filter (fun p => !(is_empty_value p.2))).map Prod.fst ++
      nonEmptyFieldNames rest
  | _ :: rest => nonEmptyFieldNames rest

/-- All field names (in order of occurrence) appearing in any map element
of the array. -/
def allFieldNames : List JVal → List Str
  | [] => []
  | .obj fs :: rest => fs.map Prod.fst ++ allFieldNames rest
  | _ :: rest => allFieldNames rest

/-- First-occurrence deduplication with an accumulator of already-seen
names. -/
def fdAux : List Str → List Str → List Str
  | [], _ => []
  | x :: xs, seen => if x ∈ seen then fdAux xs seen else x :: fdAux xs (x :: seen)

/-- Distinct names in order of first occurrence. -/
def firstDistinct (l : List Str) : List Str := fdAux l []

theorem fdAux_congr {l : List Str} :
    ∀ {s1 s2 : List Str}, (∀ x, x ∈ s1 ↔ x ∈ s2) → fdAux l s1 = fdAux l s2 := by
  induction l with
  | nil => intro s1 s2 h; rfl
  | cons x xs ih =>
    intro s1 s2 h
    by_cases hx : x ∈ s1
    · rw [fdAux, if_pos hx, fdAux, if_pos ((h x).mp hx)]
      exact ih h
    · rw [fdAux, if_neg hx, fdAux, if_neg (fun hc => hx ((h x).mpr hc))]
      congr 1
      refine ih (fun y => ?_)
      simp only [List.mem_cons, h y]


theorem fdAux_append (l1 l2 : List Str) :
    ∀ s, fdAux (l1 ++ l2) s = fdAux l1 s ++ fdAux l2 (l1 ++ s) := by
  induction l1 with
  | nil => intro s; simp [fdAux]
  | cons x l1' ih =>
    intro s
    by_cases hx : x ∈ s
    · rw [List.cons_append, fdAux, if_pos hx, ih, fdAux, if_pos hx]
      congr 1
      refine fdAux_congr (fun y => ?_)
      have hyx : y = x → y ∈ s := fun h => h ▸ hx
      simp only [List.cons_append, List.mem_append, List.mem_cons]
      tauto
    · rw [List.cons_append, fdAux, if_neg hx, ih (x :: s), fdAux, if_neg hx,
        List.cons_append, List.cons_append]
      congr 2
      refine fdAux_congr (fun y => ?_)
      simp only [List.mem_append, List.mem_cons]
      tauto

theorem mem_fdAux {x : Str} {l : List Str} :
    ∀ {s : List Str}, x ∈ fdAux l s ↔ x ∈ l ∧ x ∉ s := by
  induction l with
  | nil => intro s; simp [fdAux]
  | cons y ys ih =>
    intro s
    by_cases hy : y ∈ s
    · rw [fdAux, if_pos hy, ih]
      have hxy : x = y → x ∈ s := fun h => h ▸ hy
      simp only [List.mem_cons]
      tauto
    · rw [fdAux, if_neg hy]
      simp only [List.mem_cons, ih, List.mem_cons]
      by_cases hxy : x = y
      · subst hxy; tauto
      · tauto

theorem fdAux_nodup (l : List Str) : ∀ s, (fdAux l s).Nodup := by
  induction l with
  | nil => intro s; simp [fdAux]
  | cons x xs ih =>
    intro s
    by_cases hx : x ∈ s
    · rw [fdAux, if_pos hx]; exact ih s
    · rw [fdAux, if_neg hx]
      refine List.nodup_cons.mpr ⟨?_, ih _⟩
      intro hc
      exact (mem_fdAux.mp hc).2 (List.mem_cons_self _ _)

theorem addGrouped_keys (g : List (Str × List JVal)) (k : Str) (v : JVal) :
    (addGrouped g k v).map Prod.fst =
      if k ∈ g.map Prod.fst then g.map Prod.fst else g.map Prod.fst ++ [k] := by
  induction g with
  | nil => simp [addGrouped]
  | cons q rest ih =>
    obtain ⟨k', vs⟩ := q
    rw [addGrouped]
    by_cases hk : k' = k
    · subst hk
      simp [List.mem_cons]
    · rw [if_neg hk]
      simp only [List.map_cons, ih]
      have hiff : (k ∈ k' :: rest.map Prod.fst) ↔ (k ∈ rest.map Prod.fst) := by
        simp only [List.mem_cons]
        constructor
        · rintro (h | h)
          · exact absurd h.symm hk
          · exact h
        · exact Or.inr
      by_cases hm : k ∈ rest.map Prod.fst
      · simp [hm, hiff.mpr hm]
      · rw [if_neg hm, if_neg (fun hc => hm (hiff.mp hc))]
        simp

theorem innerFold_keys (fs : List (Str × JVal)) :
    ∀ g : List (Str × List JVal),
      ((fs.foldl (fun g2 p => if is_empty_value p.2 then g2
          else addGrouped g2 p.1 p.2) g).map Prod.fst) =
        g.map Prod.fst ++
          fdAux ((fs.filter (fun p => !(is_empty_value p.2))).map Prod.fst)
            (g.map Prod.fst) := by
  induction fs with
  | nil => intro g; simp [fdAux]
  | cons p fs' ih =>
    intro g
    rw [List.foldl_cons]
    by_cases he : is_empty_value p.2 = true
    · rw [if_pos he, ih]
      simp [List.filter_cons, he, fdAux]
    · rw [if_neg he, ih]
      rw [List.filter_cons, if_pos (by simp [he])]
      rw [List.map_cons, fdAux]
      by_cases hm : p.1 ∈ g.map Prod.fst
      · rw [if_pos hm, addGrouped_keys, if_pos hm]
      · rw [if_neg hm, addGrouped_keys, if_neg hm]
        rw [List.append_assoc, List.singleton_append]
        congr 2
        refine fdAux_congr (fun y => ?_)
        simp only [List.mem_append, List.mem_singleton, List.mem_cons]
        tauto

theorem groupFields_keys (elems : List JVal) :
    ∀ g : List (Str × List JVal),
      (groupFields elems g).map Prod.fst =
        g.map Prod.fst ++ fdAux (nonEmptyFieldNames elems) (g.map Prod.fst) := by
  induction elems with
  | nil => intro g; simp [groupFields, nonEmptyFieldNames, fdAux]
  | cons e rest ih =>
    intro g
    match e with
    | .obj fs =>
      rw [groupFields, ih, innerFold_keys, nonEmptyFieldNames]
      rw [fdAux_append, List.append_assoc]
      congr 2
      refine fdAux_congr (fun y => ?_)
      simp only [List.mem_append, mem_fdAux]
      tauto
    | .null => simp only [groupFields, nonEmptyFieldNames, ih]
    | .bool b => simp only [groupFields, nonEmptyFieldNames, ih]
    | .num q => simp only [groupFields, nonEmptyFieldNames, ih]
    | .str s => simp only [groupFields, nonEmptyFieldNames, ih]
    | .arr a => simp only [groupFields, nonEmptyFieldNames, ih]

theorem addGrouped_vals {g : List (Str × List JVal)} {k : Str} {v : JVal}
    (h : ∀ q ∈ g, q.2 ≠ []) : ∀ q ∈ addGrouped g k v, q.2 ≠ [] := by
  induction g with
  | nil =>
    intro q hq
    simp only [addGrouped, List.mem_singleton] at hq
    subst hq; simp
  | cons p rest ih =>
    intro q hq
    obtain ⟨k', vs⟩ := p
    rw [addGrouped] at hq
    by_cases hk : k' = k
    · rw [if_pos hk] at hq
      rcases List.mem_cons.mp hq with h1 | h1
      · subst h1; simp
      · exact h q (List.mem_cons_of_mem _ h1)
    · rw [if_neg hk] at hq
      rcases List.mem_cons.mp hq with h1 | h1
      · subst h1; exact h _ (List.mem_cons_self _ _)
      · exact ih (fun r hr => h r (List.mem_cons_of_mem _ hr)) q h1

theorem innerFold_vals (fs : List (Str × JVal)) :
    ∀ (g : List (Str × List JVal)), (∀ q ∈ g, q.2 ≠ []) →
      ∀ q ∈ fs.foldl (fun g2 p => if is_empty_value p.2 then g2
          else addGrouped g2 p.1 p.2) g, q.2 ≠ [] := by
  induction fs with
  | nil => intro g hg q hq; exact hg q hq
  | cons p fs' ih =>
    intro g hg q hq
    rw [List.foldl_cons] at hq
    by_cases he : is_empty_value p.2 = true
    · rw [if_pos he] at hq; exact ih g hg q hq
    · rw [if_neg he] at hq; exact ih _ (addGrouped_vals hg) q hq

theorem groupFields_vals {elems : List JVal} :
    ∀ {g : List (Str × List JVal)}, (∀ q ∈ g, q.2 ≠ []) →
      ∀ q ∈ groupFields elems g, q.2 ≠ [] := by
  induction elems with
  | nil => intro g hg q hq; exact hg q hq
  | cons e rest ih =>
    intro g hg q hq
    match e with
    | .obj fs =>
      rw [groupFields] at hq
      exact ih (innerFold_vals fs g hg) q hq
    | .null => simp only [groupFields] at hq; exact ih hg q hq
    | .bool b => simp only [groupFields] at hq; exact ih hg q hq
    | .num qq => simp only [groupFields] at hq; exact ih hg q hq
    | .str s => simp only [groupFields] at hq; exact ih hg q hq
    | .arr a => simp only [groupFields] at hq; exact ih hg q hq

theorem filterMap_all_some (f : Str × List JVal → Str × JVal)
    (g : List (Str × List JVal)) (h : ∀ q ∈ g, q.2 ≠ []) :
    (g.filterMap fun p => if p.2.isEmpty then none else some (f p)) = g.map f := by
  induction g with
  | nil => rfl
  | cons p rest ih =>
    rw [List.filterMap_cons, List.map_cons]
    rw [if_neg (by simpa using h p (List.mem_cons_self _ _))]
    rw [ih (fun q hq => h q (List.mem_cons_of_mem _ hq))]

theorem transposeArray_keys (nk : Str) (elems : List JVal) :
    (transposeArray nk elems).map Prod.fst =
      (firstDistinct (nonEmptyFieldNames elems)).map
        (fun fk => normalize_key (nk ++ '_' :: fk)) := by
  rw [transposeArray]
  rw [filterMap_all_some
    (fun p => (normalize_key (nk ++ '_' :: p.1), JVal.arr p.2)) _
    (groupFields_vals (by simp))]
  rw [List.map_map]
  have hgk := groupFields_keys elems []
  simp only [List.map_nil, List.nil_append] at hgk
  rw [show ((fun p : Str × JVal => p.1) ∘
      fun p : Str × List JVal => (normalize_key (nk ++ '_' :: p.1), JVal.arr p.2)) =
      ((fun fk : Str => normalize_key (nk ++ '_' :: fk)) ∘ Prod.fst) from rfl]
  rw [← List.map_map, hgk, firstDistinct]

/-- Claim C5 (amended): for every non-empty array of maps, flatten
dispatches to field transposition, which emits exactly one output key per
distinct field name carrying at least one non-empty value across the
elements — the key `normalize_key (prefix + "_" + field)` — in order of
first occurrence, over a duplicate-free list of field names.  (A field
name all of whose occurrences are empty yields no key, and distinct field
names may collide after normalization; the claimed count equality holds
exactly when neither happens.) -/
theorem transpose_one_key_per_field (k parent : Str) (f : List (Str × JVal))
    (fs : List JVal) :
    flatten_dict [(k, .arr (.obj f :: fs))] parent =
      dictOf (transposeArray (normalize_key (joinKey parent k)) (.obj f :: fs)) ∧
    (transposeArray (normalize_key (joinKey parent k)) (.obj f :: fs)).map Prod.fst =
      (firstDistinct (nonEmptyFieldNames (.obj f :: fs))).map
        (fun fk => normalize_key (normalize_key (joinKey parent k) ++ '_' :: fk)) ∧
    (firstDistinct (nonEmptyFieldNames (.obj f :: fs))).Nodup := by
  refine ⟨?_, transposeArray_keys _ _, fdAux_nodup _ _⟩
  rw [flatten_dict]
  congr 1
  simp only [flattenItems, flattenOne, List.append_nil]

/-- Claim C5 counterexample: for the non-empty array of maps
`[{"a": null}]`, flatten emits zero output keys for the array although
one distinct field name appears across its elements — the claimed count
equality fails when every occurrence of a field is an empty value. -/
theorem transpose_keys_counterexample :
    ((flatten_dict [(['k'], .arr [.obj [(['a'], .null)]])] []).map Prod.fst).length = 0 ∧
      (firstDistinct (allFieldNames [.obj [(['a'], .null)]])).length = 1 := by
  decide

/-! ## Python value semantics shared by the deriver and the market loader -/

/-- Numeric view of a value: Python treats booleans as the integers
0 and 1 for arithmetic and comparison. -/
def toR? : JVal → Option ℚ
  | .bool b => some (if b then 1 else 0)
  | .num q => some q
  | _ => none

mutual

/-- Python's `==` on JSON values: numeric cross-type equality between
booleans and numbers, structural equality elsewhere (dict comparison is
modelled pairwise in insertion order; JSON-parsed dicts never carry
duplicate keys, so this matches Python on such values up to key order). -/
def pyEq (v w : JVal) : Bool :=
  match toR? v, toR? w with
  | some a, some b => a == b
  | _, _ =>
    match v, w with
    | .null, .null => true
    | .str a, .str b => a == b
    | .arr a, .arr b => pyEqL a b
    | .obj a, .obj b => pyEqO a b
    | _, _ => false

def pyEqL : List JVal → List JVal → Bool
  | [], [] => true
  | x :: xs, y :: ys => pyEq x y && pyEqL xs ys
  | _, _ => false

def pyEqO : List (Str × JVal) → List (Str × JVal) → Bool
  | [], [] => true
  | (k1, v1) :: xs, (k2, v2) :: ys => decide (k1 = k2) && pyEq v1 v2 && pyEqO xs ys
  | _, _ => false

end

/-- Python string comparison: lexicographic by code point, a proper
leading piece compares smaller. -/
def strCmp : Str → Str → Ordering
  | [], [] => .eq
  | [], _ :: _ => .lt
  | _ :: _, [] => .gt
  | a :: as, b :: bs =>
    if a.toNat < b.toNat then .lt
    else if b.toNat < a.toNat then .gt
    else strCmp as bs

mutual

/-- Python's `<` on JSON values, `none` meaning `TypeError`: numbers and
booleans compare numerically, strings lexicographically, lists
lexicographically element-wise (scanning with `==` as Python does);
`None` and dicts do not support ordering. -/
def jvCmp : JVal → JVal → Option Ordering
  | .str a, .str b => some (strCmp a b)
  | .arr a, .arr b => arrCmp a b
  | v, w =>
    match toR? v, toR? w with
    | some x, some y =>
      some (if x < y then Ordering.lt else if y < x then Ordering.gt else Ordering.eq)
    | _, _ => none

def arrCmp : List JVal → List JVal → Option Ordering
  | [], [] => some .eq
  | [], _ :: _ => some .lt
  | _ :: _, [] => some .gt
  | x :: xs, y :: ys =>
    if pyEq x y then arrCmp xs ys
    else
      match jvCmp x y with
      | some Ordering.eq => arrCmp xs ys
      | r => r

end

/-- Python's `value > 0` (line 200): numbers and booleans succeed, any
other type raises. -/
def jvGtZero : JVal → Except Unit Bool
  | .num q => .ok (decide (0 < q))
  | .bool b => .ok b
  | _ => .error ()

/-- Python's `a < b` as used to compare two price values. -/
def jvLtE (a b : JVal) : Except Unit Bool :=
  match jvCmp a b with
  | some o => .ok (o == Ordering.lt)
  | none => .error ()

/-! ## The catalog attribute deriver (`create_product`, lines 179-301) -/

/-- `d[k]` on a Python dict: raises `KeyError` when absent. -/
def getKey (a : Assoc) (k : Str) : Except Unit JVal :=
  match lookupA a k with
  | some v => .ok v
  | none => .error ()

/-- `d[k]` when `d` is an arbitrary value that must be a dict. -/
def getKeyJ (v : JVal) (k : Str) : Except Unit JVal :=
  match v with
  | .obj o => getKey o k
  | _ => .error ()

/-- Coerce to a dict, raising otherwise (models iterating `.items()` on a
non-dict value). -/
def asObj : JVal → Except Unit Assoc
  | .obj o => .ok o
  | _ => .error ()

/-- Coerce to text, raising otherwise (models `str`-only operations such
as concatenation or `.strip()` applied to a non-string). -/
def asStr : JVal → Except Unit Str
  | .str s => .ok s
  | _ => .error ()

/-- `clean_attributes` of `bloomreach_products.py` (lines 119-121). -/
def clean_attributes (attrs : Assoc) : Assoc :=
  dictOf ((attrs.filter (fun p => !(is_empty_value p.2))).map
    (fun p => (normalize_key p.1, p.2)))

/-- `normalize_key("sv.compareAtPrice")` (line 243). -/
def compareAtKey : Str := normalize_key "sv.compareAtPrice".toList

/-- `normalize_key("sv.price")` (line 244). -/
def priceKey : Str := normalize_key "sv.price".toList

/-- The `elif` arm of the price handling (lines 256-259): only a standard
price is present; expose it as `price` when it coerces to a non-zero
(truthy) number. -/
def variant_price_elif (va : Assoc) : Assoc :=
  match lookupA va priceKey with
  | some pv =>
    (match convert_to_float pv with
     | some p => if decide (p ≠ 0) then updA va "price".toList (.num p) else va
     | none => va)
  | none => va

/-- The price handling of `create_product` (lines 242-259), applied to
the flattened variant attributes.  Reading `sv_price` raises when a
truthy `sv_compareAtPrice` is present but `sv_price` is not; both
converted prices must be truthy (non-`None` and non-zero) for any price
field to be written. -/
def variant_price_logic (va : Assoc) : Except Unit Assoc :=
  match lookupA va compareAtKey with
  | some cv =>
    if pyTruthy cv then do
      let pvv ← getKey va priceKey
      match convert_to_float cv, convert_to_float pvv with
      | some c, some p =>
        if decide (c ≠ 0) && decide (p ≠ 0) then
          (if c = p then pure (updA va "price".toList (.num c))
           else pure (updA (updA va "price".toList (.num c)) "sale_price".toList (.num p)))
        else pure va
      | _, _ => pure va
    else pure (variant_price_elif va)
  | none => pure (variant_price_elif va)

/-- Variant thumbnail (lines 262-264). -/
def variant_thumb (va : Assoc) : Assoc :=
  match lookupA va (normalize_key "sv.image.url".toList) with
  | some v => updA va "thumb_image".toList v
  | none => va

/-- Variant availability (lines 266-270): always set, `False` first, then
`True` when the sell-ability flag is present (`available_key in
variant_attrs`) and truthy. -/
def variant_availability (va : Assoc) : Assoc :=
  let a1 := updA va "availability".toList (.bool false)
  if (lookupA a1 (normalize_key "sv.availableForSale".toList)).any pyTruthy then
    updA a1 "availability".toList (.bool true)
  else a1

/-- A JSON value CPython accepts as a dict key: lists and dicts are
unhashable, so subscript assignment with one raises `TypeError`. -/
def hashableKey : JVal → Bool
  | .arr _ => false
  | .obj _ => false
  | _ => true

/-- Assignment into a Python dict whose keys are raw JSON values
(compared with `==`, so `1`, `1.0` and `True` share a slot): the stored
key keeps its first-insertion identity, the value is overwritten. -/
def updPy {β : Type} (l : List (JVal × β)) (k : JVal) (v : β) :
    List (JVal × β) :=
  match l with
  | [] => [(k, v)]
  | (k2, v2) :: rest =>
    if pyEq k2 k then (k2, v) :: rest else (k2, v2) :: updPy rest k v

/-- The resolved variant key (lines 224-228): a truthy `sv.sku` when
present, else the id extracted from `sv.id`. -/
def variantKey (ra : Assoc) : JVal :=
  match lookupA ra "sv.sku".toList with
  | some sv =>
    if pyTruthy sv then sv
    else extract_id_from_gid ((lookupA ra "sv.id".toList).getD .null)
  | none => extract_id_from_gid ((lookupA ra "sv.id".toList).getD .null)

/-- Process one variant record (lines 222-276): resolve the variant key
on the raw attributes, flatten, skip when the flattened map is empty,
then apply price, thumbnail and availability logic and clean; a variant
whose cleaned attributes are empty keeps its pre-clean attributes (the
`continue` on line 275 skips only the re-assignment). -/
def processVariant (variant : JVal) : Except Unit (Option (JVal × Assoc)) := do
  let vaV ← getKeyJ variant "attributes".toList
  let ra ← asObj vaV
  let fattrs := flatten_dict ra []
  if fattrs.isEmpty then pure none
  else do
    let a1 ← variant_price_logic fattrs
    let a2 := variant_thumb a1
    let a3 := variant_availability a2
    let a4 := clean_attributes a3
    pure (some (variantKey ra, if a4.isEmpty then a3 else a4))

/-- The variant loop (lines 221-276): the dict write on line 235 raises
on an unhashable resolved key, and later variants whose key compares
equal under Python `==` overwrite earlier ones. -/
def processVariants (l : List (Str × JVal)) : Except Unit (List (JVal × Assoc)) :=
  l.foldlM
    (fun acc kv => do
      match ← processVariant kv.2 with
      | none => pure acc
      | some (k, attrs) =>
        if hashableKey k then pure (updPy acc k attrs) else .error ())
    []

/-- Lines 279-280: drop variants whose attributes are empty. -/
def out_variants (pv : List (JVal × Assoc)) : List (JVal × Assoc) :=
  pv.filter (fun p => !(p.2.isEmpty))

/-- The min/max fold over variant prices (lines 283-291). -/
def minMaxPrices (vs : List (JVal × Assoc)) :
    Except Unit (Option JVal × Option JVal) :=
  vs.foldlM
    (fun mm p => do
      match lookupA p.2 "price".toList with
      | none => pure mm
      | some JVal.null => pure mm
      | some vp => do
        let newMin ← (match mm.1 with
          | none => pure (some vp)
          | some m => do
            let lt ← jvLtE vp m
            pure (if lt then some vp else some m))
        let newMax ← (match mm.2 with
          | none => pure (some vp)
          | some m => do
            let gt ← jvLtE m vp
            pure (if gt then some vp else some m))
        pure (newMin, newMax))
    ((none, none) : Option JVal × Option JVal)

/-- Root availability (lines 199-203): status must be readable; the
output is `True` exactly when the status equals `"ACTIVE"` and a strictly
positive `sp.totalInventory` is present (comparing a non-numeric
inventory raises). -/
def root_availability (in_pa : Assoc) : Except Unit Bool := do
  let st ← getKey in_pa "sp.status".toList
  if pyEq st (.str "ACTIVE".toList) then
    match lookupA in_pa "sp.totalInventory".toList with
    | none => pure false
    | some v => jvGtZero v
  else pure false

/-- Root thumbnail (lines 205-208). -/
def root_thumb (out_pa : Assoc) : Assoc :=
  match lookupA out_pa (normalize_key "sp.featuredImage.url".toList) with
  | some v => updA out_pa "thumb_image".toList v
  | none => out_pa

/-- The three product-level mappings of `PRODUCT_MAPPINGS` (lines 12-16):
source key, destination key, and the applied function (`identity` or
`str.strip`). -/
inductive MapFn where
  | ident
  | strip

/-- Apply one mapping function; `.strip()` raises on non-strings. -/
def applyMapFn : MapFn → JVal → Except Unit JVal
  | .ident, v => .ok v
  | .strip, .str s => .ok (.str (pyStrip s))
  | .strip, _ => .error ()

/-- `PRODUCT_MAPPINGS` of `bloomreach_products.py` (lines 12-16). -/
def PRODUCT_MAPPINGS : List (Str × Str × MapFn) :=
  [("sp.vendor".toList, "brand".toList, MapFn.ident),
   ("sp.descriptionHtml".toList, "description".toList, MapFn.strip),
   ("sp.title".toList, "title".toList, MapFn.ident)]

/-- One iteration of the mapping loop (lines 211-217). -/
def applyOneMapping (pa : Assoc) (m : Str × Str × MapFn) : Except Unit Assoc :=
  match lookupA pa (normalize_key m.1) with
  | none => .ok pa
  | some x => do
    let value ← applyMapFn m.2.2 x
    if is_empty_value value then pure pa
    else pure (updA pa (normalize_key m.2.1) value)

/-- The mapping loop over `PRODUCT_MAPPINGS`. -/
def applyMappings (pa : Assoc) : Except Unit Assoc :=
  PRODUCT_MAPPINGS.foldlM applyOneMapping pa

/-- The output record shape `{"id": ..., "attributes": ..., "variants": ...}`. -/
structure OutProduct where
  id : JVal
  attributes : Assoc
  variants : List (JVal × Assoc)
  deriving DecidableEq

/-- `create_product` of `bloomreach_products.py` (lines 179-301). -/
def create_product (product : Assoc) (shopify_url : Str) :
    Except Unit OutProduct := do
  let idv ← getKey product "id".toList
  let attrsV ← getKey product "attributes".toList
  let in_pa ← asObj attrsV
  let fa := flatten_dict in_pa []
  let handleV ← getKey in_pa "sp.handle".toList
  let handle ← asStr handleV
  let pa1 := updA fa "url".toList
    (.str ("https://".toList ++ shopify_url ++ "/products/".toList ++ handle))
  let avail ← root_availability in_pa
  let pa2 := updA pa1 "availability".toList (.bool avail)
  let pa3 := root_thumb pa2
  let pa4 ← applyMappings pa3
  let res ← (match lookupA product "variants".toList with
    | some vv =>
      if pyTruthy vv then do
        let vo ← asObj vv
        let pv ← processVariants vo
        let outv := out_variants pv
        let mm ← minMaxPrices outv
        let pa5 := (match mm.1 with
          | some m => updA pa4 "price".toList m
          | none => pa4)
        let pa6 := (match mm.2, mm.1 with
          | some mx, some mn =>
            if pyEq mx mn then pa5 else updA pa5 "price_range_max".toList mx
          | some mx, none => updA pa5 "price_range_max".toList mx
          | none, _ => pa5)
        pure (pa6, outv)
      else pure (pa4, ([] : List (JVal × Assoc)))
    | none => pure (pa4, ([] : List (JVal × Assoc))))
  pure { id := idv, attributes := clean_attributes res.1, variants := res.2 }

/-! ## Association-list lemmas for the Python dict model -/

theorem lookupA_updA_self {α β : Type} [DecidableEq α] (l : List (α × β))
    (k : α) (v : β) : lookupA (updA l k v) k = some v := by
  induction l with
  | nil => simp [updA, lookupA]
  | cons p rest ih =>
    obtain ⟨k', v'⟩ := p
    rw [updA]
    by_cases hk : k' = k
    · rw [if_pos hk, lookupA, if_pos hk]
    · rw [if_neg hk, lookupA, if_neg hk]
      exact ih

theorem lookupA_updA_ne {α β : Type} [DecidableEq α] (l : List (α × β))
    {k k2 : α} (v : β) (h : k ≠ k2) : lookupA (updA l k v) k2 = lookupA l k2 := by
  induction l with
  | nil => simp [updA, lookupA, h]
  | cons p rest ih =>
    obtain ⟨k', v'⟩ := p
    rw [updA]
    by_cases hk : k' = k
    · rw [if_pos hk, lookupA, lookupA, if_neg (hk ▸ h), if_neg (hk ▸ h)]
    · rw [if_neg hk, lookupA, lookupA]
      by_cases h2 : k' = k2
      · rw [if_pos h2, if_pos h2]
      · rw [if_neg h2, if_neg h2]
        exact ih

theorem updA_append {α β : Type} [DecidableEq α] {l : List (α × β)} {k : α}
    (v : β) (h : k ∉ l.map Prod.fst) : updA l k v = l ++ [(k, v)] := by
  induction l with
  | nil => rfl
  | cons p rest ih =>
    obtain ⟨k', v'⟩ := p
    rw [updA]
    have hk : ¬(k' = k) := by
      intro hc; exact h (by simp [hc])
    rw [if_neg hk, List.cons_append]
    congr 1
    exact ih (fun hc => h (by simp [hc]))

theorem mem_keys_updA {α β : Type} [DecidableEq α] {x : α} {l : List (α × β)}
    {k : α} {v : β} (h : x ∈ (updA l k v).map Prod.fst) :
    x ∈ l.map Prod.fst ∨ x = k := by
  rw [List.mem_map] at h
  obtain ⟨p, hp, hpx⟩ := h
  rcases mem_updA hp with h | h
  · refine Or.inl ?_
    rw [← hpx]
    exact List.mem_map_of_mem _ h
  · subst h; exact Or.inr hpx.symm

theorem updA_keys_nodup {α β : Type} [DecidableEq α] {l : List (α × β)}
    (k : α) (v : β) (h : (l.map Prod.fst).Nodup) :
    ((updA l k v).map Prod.fst).Nodup := by
  induction l with
  | nil => simp [updA]
  | cons p rest ih =>
    obtain ⟨k', v'⟩ := p
    rw [updA]
    by_cases hk : k' = k
    · rw [if_pos hk]; exact h
    · rw [if_neg hk]
      simp only [List.map_cons, List.nodup_cons] at h ⊢
      refine ⟨fun hc => ?_, ih h.2⟩
      rcases mem_keys_updA hc with hc | hc
      · exact h.1 hc
      · exact hk hc

theorem dictOf_keys_nodup {α β : Type} [DecidableEq α] (l : List (α × β)) :
    ((dictOf l).map Prod.fst).Nodup := by
  rw [dictOf]
  have H : ∀ (acc : List (α × β)), (acc.map Prod.fst).Nodup →
      (((l.foldl (fun a q => updA a q.1 q.2) acc)).map Prod.fst).Nodup := by
    induction l with
    | nil => intro acc h; exact h
    | cons p rest ih =>
      intro acc h
      rw [List.foldl_cons]
      exact ih _ (updA_keys_nodup _ _ h)
  exact H [] (by simp)

theorem foldl_updA_append {α β : Type} [DecidableEq α] {l : List (α × β)} :
    ∀ {acc : List (α × β)}, (((acc ++ l).map Prod.fst).Nodup) →
      l.foldl (fun a q => updA a q.1 q.2) acc = acc ++ l := by
  induction l with
  | nil => intro acc _; simp
  | cons q l' ih =>
    intro acc h
    rw [List.foldl_cons]
    have hq : q.1 ∉ acc.map Prod.fst := by
      intro hc
      rw [List.map_append, List.nodup_append] at h
      exact h.2.2 hc (by simp)
    rw [updA_append q.2 hq]
    rw [ih (by simpa using h)]
    simp

theorem dictOf_id {α β : Type} [DecidableEq α] {l : List (α × β)}
    (h : (l.map Prod.fst).Nodup) : dictOf l = l := by
  rw [dictOf]
  have := @foldl_updA_append _ _ _ l [] (by simpa using h)
  simpa using this

theorem lookupA_filter {α β : Type} [DecidableEq α] {l : List (α × β)}
    (p : α × β → Bool) {k : α} {v : β} (hv : lookupA l k = some v)
    (hp : p (k, v) = true) :
    lookupA (l.filter p) k = some v := by
  induction l with
  | nil => simp [lookupA] at hv
  | cons q rest ih =>
    obtain ⟨k', v'⟩ := q
    rw [lookupA] at hv
    by_cases hk : k' = k
    · rw [if_pos hk] at hv
      injection hv with hv2
      have hq : p (k', v') = true := by rw [hk, hv2]; exact hp
      rw [List.filter_cons, if_pos hq, lookupA, if_pos hk, hv2]
    · rw [if_neg hk] at hv
      rw [List.filter_cons]
      by_cases hq : p (k', v') = true
      · rw [if_pos hq, lookupA, if_neg hk]
        exact ih hv
      · rw [if_neg hq]
        exact ih hv

theorem map_normalize_id {a : Assoc} (h : ∀ p ∈ a, normalize_key p.1 = p.1) :
    a.map (fun p => (normalize_key p.1, p.2)) = a := by
  induction a with
  | nil => rfl
  | cons p rest ih =>
    rw [List.map_cons]
    rw [h p (List.mem_cons_self _ _)]
    rw [ih (fun q hq => h q (List.mem_cons_of_mem _ hq))]

/-- Looking up a normalizer-clean key holding a non-empty value commutes
with `clean_attributes`, provided all keys are normalizer-clean and
duplicate-free. -/
theorem lookupA_clean {a : Assoc} (hkeys : ∀ p ∈ a, normalize_key p.1 = p.1)
    (hnodup : (a.map Prod.fst).Nodup) {k : Str} {v : JVal}
    (hv : lookupA a k = some v) (hne : is_empty_value v = false) :
    lookupA (clean_attributes a) k = some v := by
  rw [clean_attributes]
  rw [map_normalize_id (fun p hp => hkeys p (List.mem_of_mem_filter hp))]
  rw [dictOf_id]
  · exact lookupA_filter _ hv (by simp [hne])
  · have hs : (a.filter (fun p => !(is_empty_value p.2))).Sublist a :=
      List.filter_sublist a
    exact hnodup.sublist (hs.map Prod.fst)

theorem exc_bind_ok {α β : Type} (a : α) (f : α → Except Unit β) :
    (Except.ok a : Except Unit α) >>= f = f a := rfl

theorem exc_bind_err {α β : Type} (f : α → Except Unit β) :
    (Except.error () : Except Unit α) >>= f = Except.error () := rfl

theorem exc_pure {α : Type} (a : α) : (pure a : Except Unit α) = Except.ok a := rfl

/-! ## Price logic (claim C6) -/

theorem str2float_nil : str2float [] = none := by decide

/-- A value that coerces to a non-zero number is truthy, so the
Python truthiness guards of lines 246 and 250 pass on it. -/
theorem truthy_of_coerce {v : JVal} {q : ℚ} (h : convert_to_float v = some q)
    (hq : q ≠ 0) : pyTruthy v = true := by
  match v with
  | .null => simp [convert_to_float] at h
  | .bool b =>
    rw [convert_to_float] at h
    injection h with h2
    cases b
    · simp at h2; exact absurd h2.symm hq
    · rfl
  | .num p =>
    rw [convert_to_float] at h
    injection h with h2
    subst h2
    simpa [pyTruthy] using hq
  | .str s =>
    match s with
    | [] =>
      rw [convert_to_float, str2float_nil] at h
      cases h
    | c :: t => simp [pyTruthy]
  | .arr a => simp [convert_to_float] at h
  | .obj o => simp [convert_to_float] at h

/-- Claim C6 (amended): on a variant's flattened attributes, when both
the compare-at price and the standard price are present and numerically
coerce to truthy (non-zero) values, equality of the two yields only
`price` (that common value, `sale_price` untouched), and inequality
yields `price` = the compare-at value and `sale_price` = the standard
value; when the compare-at key is absent and the standard price coerces
to a non-zero value, it is exposed as `price`.  (The original claim
fails when a present price coerces to 0.0, which Python's truthiness
guards treat as missing.) -/
theorem variant_price_logic_amended (va : Assoc) :
    (∀ cv pv c p,
      lookupA va compareAtKey = some cv → convert_to_float cv = some c →
      c ≠ 0 → lookupA va priceKey = some pv → convert_to_float pv = some p →
      p ≠ 0 →
      ∃ res, variant_price_logic va = .ok res ∧
        (c = p → lookupA res "price".toList = some (.num c) ∧
          lookupA res "sale_price".toList = lookupA va "sale_price".toList) ∧
        (c ≠ p → lookupA res "price".toList = some (.num c) ∧
          lookupA res "sale_price".toList = some (.num p))) ∧
    (∀ pv p, lookupA va compareAtKey = none → lookupA va priceKey = some pv →
      convert_to_float pv = some p → p ≠ 0 →
      ∃ res, variant_price_logic va = .ok res ∧
        lookupA res "price".toList = some (.num p)) := by
  constructor
  · intro cv pv c p hcv hc hc0 hpv hp hp0
    rw [variant_price_logic, hcv]
    simp only [truthy_of_coerce hc hc0, if_true, getKey, hpv, exc_bind_ok,
      hc, hp]
    rw [if_pos (by simp [hc0, hp0])]
    by_cases hcp : c = p
    · rw [if_pos hcp, exc_pure]
      refine ⟨_, rfl, fun _ => ⟨lookupA_updA_self _ _ _, ?_⟩,
        fun hne => absurd hcp hne⟩
      exact lookupA_updA_ne _ _ (by decide)
    · rw [if_neg hcp, exc_pure]
      refine ⟨_, rfl, fun heq => absurd heq hcp,
        fun _ => ⟨?_, lookupA_updA_self _ _ _⟩⟩
      rw [lookupA_updA_ne _ _ (by decide)]
      exact lookupA_updA_self _ _ _
  · intro pv p hno hpv hp hp0
    rw [variant_price_logic, hno]
    simp only [variant_price_elif, hpv, hp]
    rw [if_pos (by simpa using hp0), exc_pure]
    exact ⟨_, rfl, lookupA_updA_self _ _ _⟩

/-- Claim C6 counterexample: with `compareAtPrice = "0"` and
`price = "5"` — both present, both coercing — the claim demands
`price` = 0 and `sale_price` = 5, but the code writes neither field:
the coerced 0.0 fails the truthiness test of line 250. -/
theorem variant_price_zero_counterexample :
    variant_price_logic [(compareAtKey, .str ['0']), (priceKey, .str ['5'])] =
      .ok [(compareAtKey, .str ['0']), (priceKey, .str ['5'])] ∧
    convert_to_float (.str ['0']) = some 0 ∧
    convert_to_float (.str ['5']) = some (mkRat 5 1) ∧
    lookupA [(compareAtKey, JVal.str ['0']), (priceKey, JVal.str ['5'])]
      "price".toList = none := by
  refine ⟨rfl, by decide, by decide, by decide⟩

/-- Witness for `variant_price_logic_amended` at concrete prices
8.00 / 10.00. -/
theorem variant_price_logic_amended_witness :
    ∃ res, variant_price_logic
        [(compareAtKey, JVal.str "10.00".toList),
         (priceKey, JVal.num (mkRat 8 1))] = .ok res ∧
      (mkRat 10 1 = mkRat 8 1 →
        lookupA res "price".toList = some (.num (mkRat 10 1)) ∧
          lookupA res "sale_price".toList =
            lookupA [(compareAtKey, JVal.str "10.00".toList),
              (priceKey, JVal.num (mkRat 8 1))] "sale_price".toList) ∧
      (mkRat 10 1 ≠ mkRat 8 1 →
        lookupA res "price".toList = some (.num (mkRat 10 1)) ∧
          lookupA res "sale_price".toList = some (.num (mkRat 8 1))) :=
  (variant_price_logic_amended _).1 (JVal.str "10.00".toList)
    (JVal.num (mkRat 8 1)) (mkRat 10 1) (mkRat 8 1) (by decide) (by decide)
    (by decide) (by decide) (by decide) (by decide)

/-! ## Invariants of attribute maps through the deriver -/

/-- Keys are duplicate-free and normalizer-clean. -/
def goodAttrs (a : Assoc) : Prop :=
  (a.map Prod.fst).Nodup ∧ ∀ p ∈ a, normalize_key p.1 = p.1

/-- All values are non-empty. -/
def allNonEmpty (a : Assoc) : Prop :=
  ∀ p ∈ a, is_empty_value p.2 = false

theorem goodAttrs_flatten (d : Assoc) (parent : Str) :
    goodAttrs (flatten_dict d parent) :=
  ⟨dictOf_keys_nodup _,
   fun p hp => (flattenItems_props d parent p (mem_dictOf hp)).2⟩

theorem allNonEmpty_flatten (d : Assoc) (parent : Str) :
    allNonEmpty (flatten_dict d parent) :=
  fun p hp => (flattenItems_props d parent p (mem_dictOf hp)).1

theorem goodAttrs_updA {a : Assoc} (h : goodAttrs a) {k : Str}
    (hk : normalize_key k = k) (v : JVal) : goodAttrs (updA a k v) :=
  ⟨updA_keys_nodup _ _ h.1,
   fun p hp => (mem_updA hp).elim (h.2 p) (fun he => by rw [he]; exact hk)⟩

theorem allNonEmpty_updA {a : Assoc} (h : allNonEmpty a) {k : Str} {v : JVal}
    (hv : is_empty_value v = false) : allNonEmpty (updA a k v) :=
  fun p hp => (mem_updA hp).elim (h p) (fun he => by rw [he]; exact hv)

/-- `clean_attributes` is the identity on a map whose keys are clean and
whose values are all non-empty. -/
theorem clean_attributes_id {a : Assoc} (hg : goodAttrs a)
    (hne : allNonEmpty a) : clean_attributes a = a := by
  rw [clean_attributes]
  rw [List.filter_eq_self.mpr (by intro p hp; simp [hne p hp])]
  rw [map_normalize_id hg.2, dictOf_id hg.1]

/-- A text value with a non-whitespace first character is non-empty. -/
theorem nonws_str_nonempty {c : Char} (hc : isPyWs c = false) (s : Str) :
    is_empty_value (.str (c :: s)) = false := by
  rw [is_empty_value]
  rw [List.isEmpty_eq_false]
  rw [pyStrip]
  rw [List.dropWhile_cons, if_neg (by simp [hc])]
  intro hcon
  rw [List.reverse_eq_nil_iff] at hcon
  rw [List.dropWhile_eq_nil_iff] at hcon
  have := hcon c (by simp)
  rw [hc] at this
  cases this

/-- Case analysis of the `elif` price arm: the attributes are returned
unchanged or with a numeric `price` written. -/
theorem variant_price_elif_cases (va : Assoc) :
    variant_price_elif va = va ∨
      ∃ q, variant_price_elif va = updA va "price".toList (.num q) := by
  rcases hpv : lookupA va priceKey with _ | pv
  · exact Or.inl (by simp only [variant_price_elif, hpv])
  · rcases hc : convert_to_float pv with _ | p
    · exact Or.inl (by simp only [variant_price_elif, hpv, hc])
    · by_cases hp : p ≠ 0
      · refine Or.inr ⟨p, ?_⟩
        simp only [variant_price_elif, hpv, hc]
        rw [if_pos (by simpa using hp)]
      · refine Or.inl ?_
        simp only [variant_price_elif, hpv, hc]
        rw [if_neg (by simpa using hp)]

/-- Case analysis of the full price handling on success. -/
theorem variant_price_logic_cases {va a1 : Assoc}
    (h : variant_price_logic va = .ok a1) :
    a1 = va ∨ (∃ q, a1 = updA va "price".toList (.num q)) ∨
      ∃ q r, a1 = updA (updA va "price".toList (.num q))
        "sale_price".toList (.num r) := by
  have helif : variant_price_elif va = a1 →
      (a1 = va ∨ (∃ q, a1 = updA va "price".toList (.num q)) ∨
        ∃ q r, a1 = updA (updA va "price".toList (.num q))
          "sale_price".toList (.num r)) := by
    intro ha2
    rcases variant_price_elif_cases va with hc | ⟨q, hc⟩
    · rw [hc] at ha2
      exact Or.inl ha2.symm
    · rw [hc] at ha2
      exact Or.inr (Or.inl ⟨q, ha2.symm⟩)
  rcases hcv : lookupA va compareAtKey with _ | cv
  · simp only [variant_price_logic, hcv, exc_pure, Except.ok.injEq] at h
    exact helif h
  · simp only [variant_price_logic, hcv] at h
    by_cases htr : pyTruthy cv = true
    · simp only [htr, if_true] at h
      rcases hpk : lookupA va priceKey with _ | pv
      · rw [getKey, hpk] at h
        cases h
      · rw [getKey, hpk, exc_bind_ok] at h
        rcases hcc : convert_to_float cv with _ | c <;>
          rcases hcp2 : convert_to_float pv with _ | p <;>
            simp only [hcc, hcp2, exc_pure, Except.ok.injEq] at h
        · exact Or.inl h.symm
        · exact Or.inl h.symm
        · exact Or.inl h.symm
        · by_cases hcp : (decide (c ≠ 0) && decide (p ≠ 0)) = true
          · rw [if_pos hcp] at h
            by_cases he : c = p
            · rw [if_pos he] at h
              simp only [Except.ok.injEq] at h
              exact Or.inr (Or.inl ⟨c, h.symm⟩)
            · rw [if_neg he] at h
              simp only [Except.ok.injEq] at h
              exact Or.inr (Or.inr ⟨c, p, h.symm⟩)
          · rw [if_neg hcp] at h
            simp only [Except.ok.injEq] at h
            exact Or.inl h.symm
    · simp only [htr, if_false, Bool.false_eq_true, exc_pure,
        Except.ok.injEq] at h
      exact helif h

theorem lookupA_mem {α β : Type} [DecidableEq α] {l : List (α × β)} {k : α}
    {v : β} (h : lookupA l k = some v) : (k, v) ∈ l := by
  induction l with
  | nil => simp [lookupA] at h
  | cons p rest ih =>
    obtain ⟨k', v'⟩ := p
    rw [lookupA] at h
    by_cases hk : k' = k
    · rw [if_pos hk] at h
      injection h with h2
      subst hk; subst h2
      exact List.mem_cons_self _ _
    · rw [if_neg hk] at h
      exact List.mem_cons_of_mem _ (ih h)

theorem exc_isOk_iff {α : Type} (e : Except Unit α) :
    e.isOk = true ↔ ∃ a, e = .ok a := by
  cases e <;> simp [Except.isOk, Except.toBool]

/-- The price handling succeeds whenever a truthy compare-at price is
accompanied by a standard price key. -/
theorem variant_price_logic_isOk {va : Assoc}
    (h : ∀ cv, lookupA va compareAtKey = some cv → pyTruthy cv = true →
      (lookupA va priceKey).isSome = true) :
    (variant_price_logic va).isOk = true := by
  rcases hcv : lookupA va compareAtKey with _ | cv
  · simp only [variant_price_logic, hcv, exc_pure, Except.isOk, Except.toBool]
  · by_cases htr : pyTruthy cv = true
    · have hps := h cv hcv htr
      rcases hpk : lookupA va priceKey with _ | pv
      · rw [hpk] at hps; cases hps
      · simp only [variant_price_logic, hcv, htr, if_true, getKey, hpk,
          exc_bind_ok]
        rcases hcc : convert_to_float cv with _ | c <;>
          rcases hpp : convert_to_float pv with _ | p <;>
            simp only [hcc, hpp, exc_pure] <;>
              first
              | rfl
              | (split <;> first
                  | rfl
                  | (split <;> rfl))
    · simp only [variant_price_logic, hcv, htr, if_false,
        Bool.false_eq_true, exc_pure, Except.isOk, Except.toBool]

/-- Thumbnail handling either leaves the attributes unchanged or writes
an existing attribute value under `thumb_image`. -/
theorem variant_thumb_cases (va : Assoc) :
    variant_thumb va = va ∨
      ∃ v, variant_thumb va = updA va "thumb_image".toList v ∧
        lookupA va (normalize_key "sv.image.url".toList) = some v := by
  rcases hv : lookupA va (normalize_key "sv.image.url".toList) with _ | v
  · exact Or.inl (by simp only [variant_thumb, hv])
  · refine Or.inr ⟨v, ?_, rfl⟩
    simp only [variant_thumb, hv]

/-- The availability step always writes a Boolean `availability`, true
exactly when the sell-ability flag is present and truthy. -/
theorem variant_availability_lookup (va : Assoc) :
    ∃ b, lookupA (variant_availability va) "availability".toList =
        some (.bool b) ∧
      (b = true ↔ ∃ fv,
        lookupA va (normalize_key "sv.availableForSale".toList) = some fv ∧
          pyTruthy fv = true) := by
  have hne : "availability".toList ≠ normalize_key "sv.availableForSale".toList := by
    decide
  have hbase : lookupA (updA va "availability".toList (.bool false))
      (normalize_key "sv.availableForSale".toList) =
      lookupA va (normalize_key "sv.availableForSale".toList) :=
    lookupA_updA_ne _ _ hne
  have hiff : ((lookupA (updA va "availability".toList (.bool false))
      (normalize_key "sv.availableForSale".toList)).any pyTruthy = true) ↔
      ∃ fv, lookupA va (normalize_key "sv.availableForSale".toList) = some fv ∧
        pyTruthy fv = true := by
    rw [hbase]
    rcases hf : lookupA va (normalize_key "sv.availableForSale".toList) with _ | fv
    · simp [Option.any]
    · simp [Option.any]
  by_cases hb : (lookupA (updA va "availability".toList (.bool false))
      (normalize_key "sv.availableForSale".toList)).any pyTruthy = true
  · refine ⟨true, ?_, ⟨fun _ => hiff.mp hb, fun _ => rfl⟩⟩
    simp only [variant_availability]
    rw [if_pos hb]
    exact lookupA_updA_self _ _ _
  · refine ⟨false, ?_, ⟨fun h2 => absurd h2 Bool.false_ne_true,
      fun hex => (hb (hiff.mpr hex)).elim⟩⟩
    simp only [variant_availability]
    rw [if_neg hb]
    exact lookupA_updA_self _ _ _

/-- The availability step does not change other keys. -/
theorem variant_availability_lookup_ne (va : Assoc) {k : Str}
    (h : k ≠ "availability".toList) :
    lookupA (variant_availability va) k = lookupA va k := by
  have h' : "availability".toList ≠ k := fun hc => h hc.symm
  simp only [variant_availability]
  by_cases hb : (lookupA (updA va "availability".toList (.bool false))
      (normalize_key "sv.availableForSale".toList)).any pyTruthy = true
  · rw [if_pos hb, lookupA_updA_ne _ _ h', lookupA_updA_ne _ _ h']
  · rw [if_neg hb, lookupA_updA_ne _ _ h']

/-- The availability step as an explicit two-case update. -/
theorem variant_availability_cases (va : Assoc) :
    variant_availability va =
        updA (updA va "availability".toList (.bool false))
          "availability".toList (.bool true) ∨
      variant_availability va = updA va "availability".toList (.bool false) := by
  simp only [variant_availability]
  by_cases hb : (lookupA (updA va "availability".toList (.bool false))
      (normalize_key "sv.availableForSale".toList)).any pyTruthy = true
  · rw [if_pos hb]; exact Or.inl rfl
  · rw [if_neg hb]; exact Or.inr rfl

/-- Well-formedness of one variant record: it is a map with a map of
attributes, its resolved key is hashable (the dict write on line 235
raises on a list- or map-valued key), a truthy flattened compare-at
price is accompanied by a standard price key, and any flattened `price`
value is numeric. -/
def variantWF (v : JVal) : Bool :=
  match v with
  | .obj vo =>
    (match lookupA vo "attributes".toList with
     | some (.obj ra) =>
       hashableKey (variantKey ra) &&
       (match lookupA (flatten_dict ra []) compareAtKey with
        | some cv => !(pyTruthy cv) || (lookupA (flatten_dict ra []) priceKey).isSome
        | none => true) &&
       (match lookupA (flatten_dict ra []) "price".toList with
        | some (JVal.num _) => true
        | some _ => false
        | none => true)
     | _ => false)
  | _ => false

/-- Everything `create_product` needs of a processed variant: it
succeeds, and an emitted entry has clean, non-empty attributes, numeric
`price` values, and a Boolean `availability` reflecting the flattened
sell-ability flag. -/
theorem processVariant_ok {v : JVal} (hwf : variantWF v = true) :
    ∃ r, processVariant v = .ok r ∧
      ∀ k attrs, r = some (k, attrs) →
        hashableKey k = true ∧
        goodAttrs attrs ∧ allNonEmpty attrs ∧
        (∀ w, lookupA attrs "price".toList = some w → ∃ q, w = .num q) ∧
        (∃ ra, getKeyJ v "attributes".toList = .ok (.obj ra) ∧
          ∃ b, lookupA attrs "availability".toList = some (.bool b) ∧
            (b = true ↔ ∃ fv,
              lookupA (flatten_dict ra [])
                  (normalize_key "sv.availableForSale".toList) = some fv ∧
                pyTruthy fv = true)) ∧
        attrs ≠ [] := by
  match v with
  | .null => simp [variantWF] at hwf
  | .bool b => simp [variantWF] at hwf
  | .num q => simp [variantWF] at hwf
  | .str s => simp [variantWF] at hwf
  | .arr a => simp [variantWF] at hwf
  | .obj vo =>
    rcases hattr : lookupA vo "attributes".toList with _ | av
    · simp only [variantWF, hattr] at hwf
      exact absurd hwf (by decide)
    · match av, hattr with
      | .null, hattr =>
        simp only [variantWF, hattr] at hwf
        exact absurd hwf (by decide)
      | .bool b, hattr =>
        simp only [variantWF, hattr] at hwf
        exact absurd hwf (by decide)
      | .num q, hattr =>
        simp only [variantWF, hattr] at hwf
        exact absurd hwf (by decide)
      | .str s, hattr =>
        simp only [variantWF, hattr] at hwf
        exact absurd hwf (by decide)
      | .arr a, hattr =>
        simp only [variantWF, hattr] at hwf
        exact absurd hwf (by decide)
      | .obj ra, hattr =>
        simp only [variantWF, hattr, Bool.and_eq_true] at hwf
        obtain ⟨⟨hkey, hwf1⟩, hwf2⟩ := hwf
        have hprice : ∀ cv, lookupA (flatten_dict ra []) compareAtKey = some cv →
            pyTruthy cv = true →
            (lookupA (flatten_dict ra []) priceKey).isSome = true := by
          intro cv hcv htr
          rw [hcv] at hwf1
          simp only [htr, Bool.not_true, Bool.false_or] at hwf1
          exact hwf1
        have hpnum : ∀ w, lookupA (flatten_dict ra []) "price".toList = some w →
            ∃ q, w = .num q := by
          intro w hw
          rw [hw] at hwf2
          match w, hwf2 with
          | .num q, _ => exact ⟨q, rfl⟩
        by_cases hemp : (flatten_dict ra []).isEmpty = true
        · refine ⟨none, ?_, by intro k attrs h; cases h⟩
          simp only [processVariant, getKeyJ, getKey, hattr, exc_bind_ok,
            asObj, hemp, if_true, exc_pure]
        · obtain ⟨a1, ha1⟩ := (exc_isOk_iff _).mp (variant_price_logic_isOk hprice)
          have hgoodf := goodAttrs_flatten ra []
          have hnef := allNonEmpty_flatten ra []
          have hflag1 : lookupA a1 (normalize_key "sv.availableForSale".toList) =
              lookupA (flatten_dict ra [])
                (normalize_key "sv.availableForSale".toList) := by
            rcases variant_price_logic_cases ha1 with hc | ⟨q, hc⟩ | ⟨q, r2, hc⟩ <;>
              subst hc
            · rfl
            · exact lookupA_updA_ne _ _ (by decide)
            · rw [lookupA_updA_ne _ _ (by decide),
                lookupA_updA_ne _ _ (by decide)]
          have hgood1 : goodAttrs a1 := by
            rcases variant_price_logic_cases ha1 with hc | ⟨q, hc⟩ | ⟨q, r2, hc⟩ <;>
              subst hc
            · exact hgoodf
            · exact goodAttrs_updA hgoodf (by decide) _
            · exact goodAttrs_updA (goodAttrs_updA hgoodf (by decide) _) (by decide) _
          have hne1 : allNonEmpty a1 := by
            rcases variant_price_logic_cases ha1 with hc | ⟨q, hc⟩ | ⟨q, r2, hc⟩ <;>
              subst hc
            · exact hnef
            · exact allNonEmpty_updA hnef (by rw [is_empty_value])
            · exact allNonEmpty_updA (allNonEmpty_updA hnef (by rw [is_empty_value]))
                (by rw [is_empty_value])
          have hp1 : ∀ w, lookupA a1 "price".toList = some w → ∃ q, w = .num q := by
            rcases variant_price_logic_cases ha1 with hc | ⟨q, hc⟩ | ⟨q, r2, hc⟩ <;>
              subst hc
            · exact hpnum
            · intro w hw
              rw [lookupA_updA_self] at hw
              injection hw with hw2
              exact ⟨q, hw2.symm⟩
            · intro w hw
              rw [lookupA_updA_ne _ _ (by decide), lookupA_updA_self] at hw
              injection hw with hw2
              exact ⟨q, hw2.symm⟩
          have hthumb := variant_thumb_cases a1
          have hflag2 : lookupA (variant_thumb a1)
              (normalize_key "sv.availableForSale".toList) =
              lookupA (flatten_dict ra [])
                (normalize_key "sv.availableForSale".toList) := by
            rcases hthumb with hc | ⟨w, hc, hl⟩ <;> rw [hc]
            · exact hflag1
            · rw [lookupA_updA_ne _ _ (by decide)]
              exact hflag1
          have hgood2 : goodAttrs (variant_thumb a1) := by
            rcases hthumb with hc | ⟨w, hc, hl⟩ <;> rw [hc]
            · exact hgood1
            · exact goodAttrs_updA hgood1 (by decide) _
          have hne2 : allNonEmpty (variant_thumb a1) := by
            rcases hthumb with hc | ⟨w, hc, hl⟩ <;> rw [hc]
            · exact hne1
            · exact allNonEmpty_updA hne1 (hne1 _ (lookupA_mem hl))
          have hp2 : ∀ w, lookupA (variant_thumb a1) "price".toList = some w →
              ∃ q, w = .num q := by
            rcases hthumb with hc | ⟨w, hc, hl⟩ <;> rw [hc]
            · exact hp1
            · intro w hw
              rw [lookupA_updA_ne _ _ (by decide)] at hw
              exact hp1 w hw
          have hgood3 : goodAttrs (variant_availability (variant_thumb a1)) := by
            rcases variant_availability_cases (variant_thumb a1) with hc | hc <;>
              rw [hc]
            · exact goodAttrs_updA (goodAttrs_updA hgood2 (by decide) _) (by decide) _
            · exact goodAttrs_updA hgood2 (by decide) _
          have hne3 : allNonEmpty (variant_availability (variant_thumb a1)) := by
            rcases variant_availability_cases (variant_thumb a1) with hc | hc <;>
              rw [hc]
            · exact allNonEmpty_updA (allNonEmpty_updA hne2 (by rw [is_empty_value]))
                (by rw [is_empty_value])
            · exact allNonEmpty_updA hne2 (by rw [is_empty_value])
          have hp3 : ∀ w, lookupA (variant_availability (variant_thumb a1))
              "price".toList = some w → ∃ q, w = .num q := by
            intro w hw
            rw [variant_availability_lookup_ne _ (by decide)] at hw
            exact hp2 w hw
          obtain ⟨b, hbl, hbiff⟩ := variant_availability_lookup (variant_thumb a1)
          have hclean : clean_attributes (variant_availability (variant_thumb a1)) =
              variant_availability (variant_thumb a1) :=
            clean_attributes_id hgood3 hne3
          refine ⟨some (variantKey ra,
            variant_availability (variant_thumb a1)), ?_, ?_⟩
          · simp only [processVariant, getKeyJ, getKey, hattr, exc_bind_ok,
              asObj, hemp, if_false, Bool.false_eq_true, ha1, hclean, ite_self,
              exc_pure]
          · intro k attrs hk
            injection hk with hk2
            injection hk2 with hk3 hk4
            subst hk4
            refine ⟨hk3 ▸ hkey, hgood3, hne3, hp3,
              ⟨ra, by rw [getKeyJ, getKey, hattr], b,
              hbl, by rw [hbiff, hflag2]⟩, ?_⟩
            intro hnil
            rw [hnil] at hbl
            cases hbl


/-- A monadic fold over `Except` preserves an invariant whose step always
succeeds. -/
theorem foldlM_inv {α β : Type} {f : β → α → Except Unit β} {P : β → Prop}
    (l : List α) (acc : β) (hacc : P acc)
    (hstep : ∀ b a, a ∈ l → P b → ∃ b2, f b a = .ok b2 ∧ P b2) :
    ∃ r, l.foldlM f acc = .ok r ∧ P r := by
  induction l generalizing acc with
  | nil => exact ⟨acc, rfl, hacc⟩
  | cons x xs ih =>
    obtain ⟨b2, hb2, hP2⟩ := hstep acc x (List.mem_cons_self _ _) hacc
    rw [List.foldlM_cons, hb2, exc_bind_ok]
    exact ih b2 hP2 (fun b a ha hb => hstep b a (List.mem_cons_of_mem _ ha) hb)

/-- Reading a present key never raises. -/
theorem getKey_some {a : Assoc} {k : Str} {v : JVal}
    (h : lookupA a k = some v) : getKey a k = .ok v := by
  rw [getKey, h]

/-- A member of a Python-keyed dict after a write is an old entry or
carries the written value. -/
theorem mem_updPy {β : Type} {p : JVal × β} :
    ∀ {l : List (JVal × β)} {k : JVal} {v : β},
      p ∈ updPy l k v → p ∈ l ∨ p.2 = v := by
  intro l
  induction l with
  | nil =>
    intro k v h
    rw [updPy] at h
    rw [List.mem_singleton] at h
    subst h
    exact Or.inr rfl
  | cons q rest ih =>
    intro k v h
    obtain ⟨k2, v2⟩ := q
    rw [updPy] at h
    by_cases hk : pyEq k2 k = true
    · rw [if_pos hk] at h
      rcases List.mem_cons.mp h with rfl | hm
      · exact Or.inr rfl
      · exact Or.inl (List.mem_cons_of_mem _ hm)
    · rw [if_neg hk] at h
      rcases List.mem_cons.mp h with rfl | hm
      · exact Or.inl (List.mem_cons_self _ _)
      · rcases ih hm with hm2 | hm2
        · exact Or.inl (List.mem_cons_of_mem _ hm2)
        · exact Or.inr hm2

/-- Fidelity of the line-235 dict write: a variant whose truthy `sv.sku`
is a list resolves to an unhashable key, so the variant loop raises
`TypeError` even though the flattened attributes are non-empty. -/
theorem processVariants_unhashable_key_raises :
    processVariants [("0".toList, JVal.obj
      [("attributes".toList, JVal.obj
        [("sv.sku".toList, JVal.arr [JVal.str "x".toList]),
         ("sv.title".toList, JVal.str "t".toList)])])] = .error () := by rfl

/-- The variant loop succeeds on well-formed variants, and every stored
entry has numeric `price` values and a Boolean `availability`. -/
theorem processVariants_ok {l : List (Str × JVal)}
    (h : ∀ kv ∈ l, variantWF kv.2 = true) :
    ∃ pv, processVariants l = .ok pv ∧
      ∀ p ∈ pv,
        (∀ w, lookupA p.2 "price".toList = some w → ∃ q, w = .num q) ∧
        (∃ b, lookupA p.2 "availability".toList = some (.bool b)) := by
  rw [processVariants]
  refine foldlM_inv l [] (fun p hp => absurd hp (List.not_mem_nil p)) ?_
  intro acc kv hkv hacc
  beta_reduce
  obtain ⟨r, hr, hchar⟩ := processVariant_ok (h kv hkv)
  rw [hr, exc_bind_ok]
  beta_reduce
  rcases r with _ | ⟨k, attrs⟩
  · exact ⟨acc, rfl, hacc⟩
  · have hp := hchar k attrs rfl
    simp only [hp.1]
    refine ⟨updPy acc k attrs, rfl, ?_⟩
    intro p hpm
    rcases mem_updPy hpm with hm | hm
    · exact hacc p hm
    · rw [hm]
      obtain ⟨ra, _, b, hb, _⟩ := hp.2.2.2.2.1
      exact ⟨hp.2.2.2.1, b, hb⟩

/-- The min/max price fold succeeds when all stored `price` values are
numeric, and both resulting bounds are numeric. -/
theorem minMaxPrices_ok {vs : List (JVal × Assoc)}
    (h : ∀ p ∈ vs, ∀ w, lookupA p.2 "price".toList = some w → ∃ q, w = .num q) :
    ∃ mm, minMaxPrices vs = .ok mm ∧
      (∀ v, mm.1 = some v → ∃ q, v = .num q) ∧
      (∀ v, mm.2 = some v → ∃ q, v = .num q) := by
  rw [minMaxPrices]
  refine foldlM_inv vs (none, none)
    ⟨fun v hv => by simp at hv, fun v hv => by simp at hv⟩ ?_
  intro mm p hp hmm
  beta_reduce
  obtain ⟨hm1, hm2⟩ := hmm
  rcases hpl : lookupA p.2 "price".toList with _ | vp
  · exact ⟨mm, rfl, hm1, hm2⟩
  · obtain ⟨q, rfl⟩ := h p hp vp hpl
    obtain ⟨m1, m2⟩ := mm
    rcases m1 with _ | m1v
    · rcases m2 with _ | m2v
      · simp only [exc_pure, exc_bind_ok]
        refine ⟨_, rfl, ?_, ?_⟩ <;>
        · intro v hv
          exact ⟨q, (Option.some.inj hv).symm⟩
      · obtain ⟨q2, rfl⟩ := hm2 m2v rfl
        obtain ⟨bo, hbo⟩ : ∃ bo, jvLtE (JVal.num q2) (JVal.num q) = .ok bo :=
          ⟨_, rfl⟩
        simp only [hbo, exc_pure, exc_bind_ok]
        refine ⟨_, rfl, ?_, ?_⟩
        · intro v hv
          exact ⟨q, (Option.some.inj hv).symm⟩
        · intro v hv
          by_cases hb2 : bo = true
          · rw [if_pos hb2] at hv
            exact ⟨q, (Option.some.inj hv).symm⟩
          · rw [if_neg hb2] at hv
            exact ⟨q2, (Option.some.inj hv).symm⟩
    · obtain ⟨q1, rfl⟩ := hm1 m1v rfl
      obtain ⟨bo1, hbo1⟩ : ∃ bo, jvLtE (JVal.num q) (JVal.num q1) = .ok bo :=
        ⟨_, rfl⟩
      rcases m2 with _ | m2v
      · simp only [hbo1, exc_pure, exc_bind_ok]
        refine ⟨_, rfl, ?_, ?_⟩
        · intro v hv
          by_cases hb2 : bo1 = true
          · rw [if_pos hb2] at hv
            exact ⟨q, (Option.some.inj hv).symm⟩
          · rw [if_neg hb2] at hv
            exact ⟨q1, (Option.some.inj hv).symm⟩
        · intro v hv
          exact ⟨q, (Option.some.inj hv).symm⟩
      · obtain ⟨q2, rfl⟩ := hm2 m2v rfl
        obtain ⟨bo2, hbo2⟩ : ∃ bo, jvLtE (JVal.num q2) (JVal.num q) = .ok bo :=
          ⟨_, rfl⟩
        simp only [hbo1, hbo2, exc_pure, exc_bind_ok]
        refine ⟨_, rfl, ?_, ?_⟩
        · intro v hv
          by_cases hb2 : bo1 = true
          · rw [if_pos hb2] at hv
            exact ⟨q, (Option.some.inj hv).symm⟩
          · rw [if_neg hb2] at hv
            exact ⟨q1, (Option.some.inj hv).symm⟩
        · intro v hv
          by_cases hb2 : bo2 = true
          · rw [if_pos hb2] at hv
            exact ⟨q, (Option.some.inj hv).symm⟩
          · rw [if_neg hb2] at hv
            exact ⟨q2, (Option.some.inj hv).symm⟩

/-- Both outcomes of one product-level mapping preserve the attribute
invariants and all other keys. -/
theorem mstep_props {pa pa2 : Assoc} {dest : Str}
    (h : pa2 = pa ∨ ∃ v, is_empty_value v = false ∧
      pa2 = updA pa (normalize_key dest) v) :
    (goodAttrs pa → goodAttrs pa2) ∧ (allNonEmpty pa → allNonEmpty pa2) ∧
    ∀ k, normalize_key dest ≠ k → lookupA pa2 k = lookupA pa k := by
  rcases h with rfl | ⟨v, hv, rfl⟩
  · exact ⟨id, id, fun _ _ => rfl⟩
  · exact ⟨fun hg => goodAttrs_updA hg (nk_idem dest) v,
      fun hne => allNonEmpty_updA hne hv,
      fun k hk => lookupA_updA_ne _ _ hk⟩

/-- One identity mapping (lines 211-217, `lambda x: x`) never raises. -/
theorem applyOneMapping_ident (pa : Assoc) (src dest : Str) :
    ∃ pa2, applyOneMapping pa (src, dest, MapFn.ident) = .ok pa2 ∧
      (pa2 = pa ∨ ∃ v, is_empty_value v = false ∧
        pa2 = updA pa (normalize_key dest) v) := by
  rcases hl : lookupA pa (normalize_key src) with _ | x
  · refine ⟨pa, ?_, Or.inl rfl⟩
    simp only [applyOneMapping, hl]
  · by_cases he : is_empty_value x = true
    · refine ⟨pa, ?_, Or.inl rfl⟩
      simp only [applyOneMapping, hl, applyMapFn, exc_bind_ok]
      rw [if_pos he, exc_pure]
    · refine ⟨updA pa (normalize_key dest) x, ?_,
        Or.inr ⟨x, by simpa using he, rfl⟩⟩
      simp only [applyOneMapping, hl, applyMapFn, exc_bind_ok]
      rw [if_neg he, exc_pure]

/-- The `str.strip` mapping (line 14) succeeds when the source value is
text whenever present. -/
theorem applyOneMapping_strip (pa : Assoc) (src dest : Str)
    (h : ∀ v, lookupA pa (normalize_key src) = some v → ∃ s, v = .str s) :
    ∃ pa2, applyOneMapping pa (src, dest, MapFn.strip) = .ok pa2 ∧
      (pa2 = pa ∨ ∃ v, is_empty_value v = false ∧
        pa2 = updA pa (normalize_key dest) v) := by
  rcases hl : lookupA pa (normalize_key src) with _ | x
  · refine ⟨pa, ?_, Or.inl rfl⟩
    simp only [applyOneMapping, hl]
  · obtain ⟨s, rfl⟩ := h x hl
    by_cases he : is_empty_value (JVal.str (pyStrip s)) = true
    · refine ⟨pa, ?_, Or.inl rfl⟩
      simp only [applyOneMapping, hl, applyMapFn, exc_bind_ok]
      rw [if_pos he, exc_pure]
    · refine ⟨updA pa (normalize_key dest) (.str (pyStrip s)), ?_,
        Or.inr ⟨_, by simpa using he, rfl⟩⟩
      simp only [applyOneMapping, hl, applyMapFn, exc_bind_ok]
      rw [if_neg he, exc_pure]

/-- The mapping loop (lines 211-217) succeeds when the description value
is text whenever present, preserves the attribute invariants, and leaves
the `availability` key untouched. -/
theorem applyMappings_run {pa : Assoc}
    (hdesc : ∀ v, lookupA pa (normalize_key "sp.descriptionHtml".toList) = some v →
      ∃ s, v = .str s) :
    ∃ pa4, applyMappings pa = .ok pa4 ∧
      (goodAttrs pa → goodAttrs pa4) ∧ (allNonEmpty pa → allNonEmpty pa4) ∧
      lookupA pa4 "availability".toList = lookupA pa "availability".toList := by
  obtain ⟨pa1, h1, hc1⟩ := applyOneMapping_ident pa "sp.vendor".toList "brand".toList
  obtain ⟨hg1, hne1, hlk1⟩ := mstep_props hc1
  have hdesc1 : ∀ v, lookupA pa1 (normalize_key "sp.descriptionHtml".toList) =
      some v → ∃ s, v = .str s := by
    rw [hlk1 _ (by decide)]
    exact hdesc
  obtain ⟨pa2, h2, hc2⟩ := applyOneMapping_strip pa1 "sp.descriptionHtml".toList
    "description".toList hdesc1
  obtain ⟨hg2, hne2, hlk2⟩ := mstep_props hc2
  obtain ⟨pa3, h3, hc3⟩ := applyOneMapping_ident pa2 "sp.title".toList "title".toList
  obtain ⟨hg3, hne3, hlk3⟩ := mstep_props hc3
  refine ⟨pa3, ?_, fun hg => hg3 (hg2 (hg1 hg)),
    fun hne => hne3 (hne2 (hne1 hne)), ?_⟩
  · rw [applyMappings, PRODUCT_MAPPINGS]
    rw [List.foldlM_cons, h1, exc_bind_ok]
    beta_reduce
    rw [List.foldlM_cons, h2, exc_bind_ok]
    beta_reduce
    rw [List.foldlM_cons, h3, exc_bind_ok]
    rfl
  · rw [hlk3 _ (by decide), hlk2 _ (by decide), hlk1 _ (by decide)]

/-- The root thumbnail step (lines 205-208) as an explicit case split. -/
theorem root_thumb_cases (pa : Assoc) :
    root_thumb pa = pa ∨
      ∃ v, lookupA pa (normalize_key "sp.featuredImage.url".toList) = some v ∧
        root_thumb pa = updA pa "thumb_image".toList v := by
  rcases hv : lookupA pa (normalize_key "sp.featuredImage.url".toList) with _ | v
  · exact Or.inl (by simp only [root_thumb, hv])
  · exact Or.inr ⟨v, rfl, by simp only [root_thumb, hv]⟩

/-- The root thumbnail step preserves the attribute invariants and all
other keys. -/
theorem root_thumb_props {pa : Assoc} (hg : goodAttrs pa) (hne : allNonEmpty pa) :
    goodAttrs (root_thumb pa) ∧ allNonEmpty (root_thumb pa) ∧
      ∀ k, k ≠ "thumb_image".toList →
        lookupA (root_thumb pa) k = lookupA pa k := by
  rcases root_thumb_cases pa with hc | ⟨v, hv, hc⟩
  · rw [hc]
    exact ⟨hg, hne, fun _ _ => rfl⟩
  · rw [hc]
    exact ⟨goodAttrs_updA hg (by decide) v,
      allNonEmpty_updA hne (hne _ (lookupA_mem hv)),
      fun k hk => lookupA_updA_ne _ _ (fun hc2 => hk hc2.symm)⟩

/-- The handle read on line 197 must find a text value (it is concatenated
to a string). -/
def handleWF : Option JVal → Bool
  | some (.str _) => true
  | _ => false

/-- A present `sp.totalInventory` must support `> 0` (line 200): a number
or a Boolean. -/
def inventoryWF : Option JVal → Bool
  | none => true
  | some (.num _) => true
  | some (.bool _) => true
  | some _ => false

/-- A present flattened `sp_descriptionHtml` must be text, or `.strip()`
on line 14 raises. -/
def descriptionWF : Option JVal → Bool
  | none => true
  | some (.str _) => true
  | some _ => false

/-- The `attributes` value must be a map whose fields satisfy the above. -/
def attrsWF : Option JVal → Bool
  | some (.obj in_pa) =>
    handleWF (lookupA in_pa "sp.handle".toList) &&
    (lookupA in_pa "sp.status".toList).isSome &&
    inventoryWF (lookupA in_pa "sp.totalInventory".toList) &&
    descriptionWF (lookupA (flatten_dict in_pa [])
      (normalize_key "sp.descriptionHtml".toList))
  | _ => false

/-- A present truthy `variants` value must be a map of well-formed
variants (`.items()` on line 222 requires a dict). -/
def variantsWF : Option JVal → Bool
  | none => true
  | some (.obj vo) => vo.all (fun kv => variantWF kv.2)
  | some vv => !(pyTruthy vv)

/-- Input conditions under which `create_product` runs to completion:
an `id`, a map of attributes with a text handle, a present status, a
comparable inventory, a text description and well-formed variants. -/
def productWF (product : Assoc) : Bool :=
  (lookupA product "id".toList).isSome &&
  attrsWF (lookupA product "attributes".toList) &&
  variantsWF (lookupA product "variants".toList)

/-- A well-formed handle value is text. -/
theorem handleWF_some {o : Option JVal} (h : handleWF o = true) :
    ∃ t, o = some (.str t) := by
  rcases o with _ | v
  · exact absurd h (by decide)
  · cases v with
    | str t => exact ⟨t, rfl⟩
    | null => exact absurd h (by decide)
    | bool b => simp only [handleWF] at h; exact absurd h (by decide)
    | num q => simp only [handleWF] at h; exact absurd h (by decide)
    | arr l => simp only [handleWF] at h; exact absurd h (by decide)
    | obj o2 => simp only [handleWF] at h; exact absurd h (by decide)

/-- A present well-formed description value is text. -/
theorem descriptionWF_some {v : JVal} (h : descriptionWF (some v) = true) :
    ∃ t, v = .str t := by
  cases v with
  | str t => exact ⟨t, rfl⟩
  | null => exact absurd h (by decide)
  | bool b => simp only [descriptionWF] at h; exact absurd h (by decide)
  | num q => simp only [descriptionWF] at h; exact absurd h (by decide)
  | arr l => simp only [descriptionWF] at h; exact absurd h (by decide)
  | obj o2 => simp only [descriptionWF] at h; exact absurd h (by decide)

/-- A well-formed `attributes` value is a map. -/
theorem attrsWF_obj {v : JVal} (h : attrsWF (some v) = true) :
    ∃ o, v = .obj o := by
  cases v with
  | obj o2 => exact ⟨o2, rfl⟩
  | null => exact absurd h (by decide)
  | bool b => simp only [attrsWF] at h; exact absurd h (by decide)
  | num q => simp only [attrsWF] at h; exact absurd h (by decide)
  | str t => simp only [attrsWF] at h; exact absurd h (by decide)
  | arr l => simp only [attrsWF] at h; exact absurd h (by decide)

/-- A truthy well-formed `variants` value is a map of well-formed
variants. -/
theorem variantsWF_truthy {v : JVal} (h : variantsWF (some v) = true)
    (ht : pyTruthy v = true) :
    ∃ vo, v = .obj vo ∧ ∀ kv ∈ vo, variantWF kv.2 = true := by
  cases v with
  | obj vo =>
    refine ⟨vo, rfl, ?_⟩
    simp only [variantsWF] at h
    exact fun kv hkv => List.all_eq_true.mp h kv hkv
  | null => exact absurd ht (by decide)
  | bool b =>
    simp only [variantsWF] at h
    rw [ht] at h
    exact absurd h (by decide)
  | num q =>
    simp only [variantsWF] at h
    rw [ht] at h
    exact absurd h (by decide)
  | str t =>
    simp only [variantsWF] at h
    rw [ht] at h
    exact absurd h (by decide)
  | arr l =>
    simp only [variantsWF] at h
    rw [ht] at h
    exact absurd h (by decide)

/-- The root availability computation (lines 199-203) succeeds whenever
the status is readable and any present inventory is comparable, and it
yields `True` exactly when the status equals `"ACTIVE"` and a positive
inventory is present. -/
theorem root_availability_ok {in_pa : Assoc} {st : JVal}
    (hst : lookupA in_pa "sp.status".toList = some st)
    (hinv : inventoryWF (lookupA in_pa "sp.totalInventory".toList) = true) :
    ∃ avail, root_availability in_pa = .ok avail ∧
      (avail = true ↔ (pyEq st (.str "ACTIVE".toList) = true ∧
        ∃ inv, lookupA in_pa "sp.totalInventory".toList = some inv ∧
          jvGtZero inv = .ok true)) := by
  simp only [root_availability, getKey_some hst, exc_bind_ok]
  by_cases hpe : pyEq st (.str "ACTIVE".toList) = true
  · rw [if_pos hpe]
    rcases hti : lookupA in_pa "sp.totalInventory".toList with _ | inv
    · refine ⟨false, rfl, ?_⟩
      constructor
      · intro hf
        exact absurd hf (by decide)
      · rintro ⟨-, inv, hinv2, -⟩
        cases hinv2
    · rw [hti] at hinv
      cases inv with
      | num q =>
        refine ⟨decide (0 < q), rfl, ?_⟩
        constructor
        · intro hd
          refine ⟨hpe, .num q, rfl, ?_⟩
          rw [show jvGtZero (JVal.num q) = .ok (decide (0 < q)) from rfl, hd]
        · rintro ⟨-, inv2, hinv2, hgt⟩
          cases hinv2
          rw [show jvGtZero (JVal.num q) = .ok (decide (0 < q)) from rfl] at hgt
          exact Except.ok.inj hgt
      | bool b =>
        refine ⟨b, rfl, ?_⟩
        constructor
        · intro hd
          exact ⟨hpe, .bool b, rfl, by rw [show jvGtZero (JVal.bool b) = .ok b from rfl, hd]⟩
        · rintro ⟨-, inv2, hinv2, hgt⟩
          cases hinv2
          exact Except.ok.inj hgt
      | null => simp only [inventoryWF] at hinv; exact absurd hinv (by decide)
      | str t => simp only [inventoryWF] at hinv; exact absurd hinv (by decide)
      | arr l => simp only [inventoryWF] at hinv; exact absurd hinv (by decide)
      | obj o2 => simp only [inventoryWF] at hinv; exact absurd hinv (by decide)
  · rw [if_neg hpe]
    refine ⟨false, rfl, ?_⟩
    constructor
    · intro hf
      exact absurd hf (by decide)
    · rintro ⟨hpe2, -⟩
      exact absurd hpe2 hpe

/-- Under `productWF`, `create_product` runs to completion; the output
keeps the input `id`, carries a Boolean `availability` equal to the root
availability of the input attributes, and every emitted variant carries
a Boolean `availability` of its own. -/
theorem create_product_run {product : Assoc} (url : Str)
    (h : productWF product = true) :
    ∃ out in_pa avail, create_product product url = .ok out ∧
      lookupA product "id".toList = some out.id ∧
      lookupA product "attributes".toList = some (.obj in_pa) ∧
      root_availability in_pa = .ok avail ∧
      lookupA out.attributes "availability".toList = some (.bool avail) ∧
      ∀ p ∈ out.variants, ∃ b,
        lookupA p.2 "availability".toList = some (.bool b) := by
  rw [productWF, Bool.and_eq_true, Bool.and_eq_true] at h
  obtain ⟨⟨hid, hB⟩, hvarWF⟩ := h
  obtain ⟨idv, hidl⟩ := Option.isSome_iff_exists.mp hid
  rcases hal : lookupA product "attributes".toList with _ | av
  · rw [hal] at hB
    exact absurd hB (by decide)
  rw [hal] at hB
  obtain ⟨in_pa, rfl⟩ := attrsWF_obj hB
  simp only [attrsWF, Bool.and_eq_true] at hB
  obtain ⟨⟨⟨hH, hS⟩, hI⟩, hD⟩ := hB
  obtain ⟨s, hhl⟩ := handleWF_some hH
  obtain ⟨st, hst⟩ := Option.isSome_iff_exists.mp hS
  obtain ⟨avail, hra, hiff⟩ := root_availability_ok hst hI
  have hfag : goodAttrs (flatten_dict in_pa []) := goodAttrs_flatten _ _
  have hfane : allNonEmpty (flatten_dict in_pa []) := allNonEmpty_flatten _ _
  have hg2 : goodAttrs (updA (updA (flatten_dict in_pa []) "url".toList
      (JVal.str ("https://".toList ++ url ++ "/products/".toList ++ s)))
      "availability".toList (JVal.bool avail)) :=
    goodAttrs_updA (goodAttrs_updA hfag (by decide) _) (by decide) _
  have hne2 : allNonEmpty (updA (updA (flatten_dict in_pa []) "url".toList
      (JVal.str ("https://".toList ++ url ++ "/products/".toList ++ s)))
      "availability".toList (JVal.bool avail)) :=
    allNonEmpty_updA (allNonEmpty_updA hfane (nonws_str_nonempty (by decide) _)) rfl
  obtain ⟨hg3, hne3, hlk3⟩ := root_thumb_props hg2 hne2
  have hdesc3 : ∀ v, lookupA (root_thumb (updA (updA (flatten_dict in_pa [])
      "url".toList (JVal.str ("https://".toList ++ url ++ "/products/".toList ++ s)))
      "availability".toList (JVal.bool avail)))
      (normalize_key "sp.descriptionHtml".toList) = some v → ∃ t, v = .str t := by
    rw [hlk3 _ (by decide), lookupA_updA_ne _ _ (by decide),
      lookupA_updA_ne _ _ (by decide)]
    intro v hv
    rw [hv] at hD
    exact descriptionWF_some hD
  obtain ⟨pa4, hmap, hg4i, hne4i, hav4⟩ := applyMappings_run hdesc3
  have hg4 : goodAttrs pa4 := hg4i hg3
  have hne4 : allNonEmpty pa4 := hne4i hne3
  have hlav : lookupA pa4 "availability".toList = some (JVal.bool avail) := by
    rw [hav4, hlk3 _ (by decide), lookupA_updA_self]
  rcases hvl : lookupA product "variants".toList with _ | vv
  · refine ⟨⟨idv, clean_attributes pa4, []⟩, in_pa, avail, ?_, hidl, rfl, hra,
      ?_, ?_⟩
    · simp only [create_product, getKey_some hidl, getKey_some hal, asObj,
        getKey_some hhl, asStr, exc_bind_ok, hra, hvl, hmap, exc_pure]
    · rw [clean_attributes_id hg4 hne4]
      exact hlav
    · intro p hp
      exact absurd hp (List.not_mem_nil p)
  rw [hvl] at hvarWF
  by_cases htr : pyTruthy vv = true
  case neg =>
    refine ⟨⟨idv, clean_attributes pa4, []⟩, in_pa, avail, ?_, hidl, rfl, hra,
      ?_, ?_⟩
    · simp only [create_product, getKey_some hidl, getKey_some hal, asObj,
        getKey_some hhl, asStr, exc_bind_ok, hra, hvl, hmap, exc_pure]
      rw [if_neg htr]; rfl
    · rw [clean_attributes_id hg4 hne4]
      exact hlav
    · intro p hp
      exact absurd hp (List.not_mem_nil p)
  case pos =>
    obtain ⟨vo, rfl, hall⟩ := variantsWF_truthy hvarWF htr
    obtain ⟨pv, hpv, hprops⟩ := processVariants_ok hall
    have hpr : ∀ p ∈ out_variants pv, ∀ w,
        lookupA p.2 "price".toList = some w → ∃ q, w = .num q :=
      fun p hp w hw => (hprops p (List.mem_of_mem_filter hp)).1 w hw
    obtain ⟨mm, hmm, hmn, hmx⟩ := minMaxPrices_ok hpr
    obtain ⟨mn, mx⟩ := mm
    rcases mn with _ | mnv
    · rcases mx with _ | mxv
      · refine ⟨⟨idv, clean_attributes pa4, out_variants pv⟩, in_pa, avail,
          ?_, hidl, rfl, hra, ?_, ?_⟩
        · simp only [create_product, getKey_some hidl, getKey_some hal, asObj,
            getKey_some hhl, asStr, exc_bind_ok, hra, hvl, hmap, hpv, hmm,
            exc_pure]
          rw [if_pos htr]; rfl
        · rw [clean_attributes_id hg4 hne4]
          exact hlav
        · intro p hp
          exact (hprops p (List.mem_of_mem_filter hp)).2
      · obtain ⟨qx, rfl⟩ := hmx mxv rfl
        refine ⟨⟨idv, clean_attributes
            (updA pa4 "price_range_max".toList (JVal.num qx)),
            out_variants pv⟩, in_pa, avail, ?_, hidl, rfl, hra, ?_, ?_⟩
        · simp only [create_product, getKey_some hidl, getKey_some hal, asObj,
            getKey_some hhl, asStr, exc_bind_ok, hra, hvl, hmap, hpv, hmm,
            exc_pure]
          rw [if_pos htr]; rfl
        · rw [clean_attributes_id (goodAttrs_updA hg4 (by decide) _)
            (allNonEmpty_updA hne4 (show is_empty_value (JVal.num qx) = false from rfl))]
          rw [lookupA_updA_ne _ _ (by decide)]
          exact hlav
        · intro p hp
          exact (hprops p (List.mem_of_mem_filter hp)).2
    · obtain ⟨qn, rfl⟩ := hmn mnv rfl
      rcases mx with _ | mxv
      · refine ⟨⟨idv, clean_attributes (updA pa4 "price".toList (JVal.num qn)),
          out_variants pv⟩, in_pa, avail, ?_, hidl, rfl, hra, ?_, ?_⟩
        · simp only [create_product, getKey_some hidl, getKey_some hal, asObj,
            getKey_some hhl, asStr, exc_bind_ok, hra, hvl, hmap, hpv, hmm,
            exc_pure]
          rw [if_pos htr]; rfl
        · rw [clean_attributes_id (goodAttrs_updA hg4 (by decide) _)
            (allNonEmpty_updA hne4 (show is_empty_value (JVal.num qn) = false from rfl))]
          rw [lookupA_updA_ne _ _ (by decide)]
          exact hlav
        · intro p hp
          exact (hprops p (List.mem_of_mem_filter hp)).2
      · obtain ⟨qx, rfl⟩ := hmx mxv rfl
        by_cases hpe2 : pyEq (JVal.num qx) (JVal.num qn) = true
        · refine ⟨⟨idv, clean_attributes (updA pa4 "price".toList (JVal.num qn)),
            out_variants pv⟩, in_pa, avail, ?_, hidl, rfl, hra, ?_, ?_⟩
          · simp only [create_product, getKey_some hidl, getKey_some hal, asObj,
              getKey_some hhl, asStr, exc_bind_ok, hra, hvl, hmap, hpv, hmm,
              exc_pure]
            rw [if_pos htr, if_pos hpe2]; rfl
          · rw [clean_attributes_id (goodAttrs_updA hg4 (by decide) _)
              (allNonEmpty_updA hne4 (show is_empty_value (JVal.num qn) = false from rfl))]
            rw [lookupA_updA_ne _ _ (by decide)]
            exact hlav
          · intro p hp
            exact (hprops p (List.mem_of_mem_filter hp)).2
        · refine ⟨⟨idv, clean_attributes (updA (updA pa4 "price".toList
            (JVal.num qn)) "price_range_max".toList (JVal.num qx)),
            out_variants pv⟩, in_pa, avail, ?_, hidl, rfl, hra, ?_, ?_⟩
          · simp only [create_product, getKey_some hidl, getKey_some hal, asObj,
              getKey_some hhl, asStr, exc_bind_ok, hra, hvl, hmap, hpv, hmm,
              exc_pure]
            rw [if_pos htr, if_neg hpe2]; rfl
          · rw [clean_attributes_id
              (goodAttrs_updA (goodAttrs_updA hg4 (by decide) _) (by decide) _)
              (allNonEmpty_updA (allNonEmpty_updA hne4 (show is_empty_value (JVal.num qn) = false from rfl)) (show is_empty_value (JVal.num qx) = false from rfl))]
            rw [lookupA_updA_ne _ _ (by decide), lookupA_updA_ne _ _ (by decide)]
            exact hlav
          · intro p hp
            exact (hprops p (List.mem_of_mem_filter hp)).2

/-- C1 (amended): for every input product record satisfying `productWF`
(an `id`, a map of attributes with a text `sp.handle`, a present
`sp.status`, a comparable inventory, a text description and well-formed
variants whose resolved variant key — a truthy `sv.sku`, else the id
from `sv.id` — is hashable), `create_product` returns without raising a
structurally complete record that keeps the input `id`; without those
conditions a missing attribute such as `sp.handle` raises, and an
unhashable variant key (a list or dict `sv.sku`) raises `TypeError` on
the `processed_variants[variant_key]` write. -/
theorem create_product_total {product : Assoc} (url : Str)
    (h : productWF product = true) :
    ∃ out, create_product product url = .ok out ∧
      lookupA product "id".toList = some out.id := by
  obtain ⟨out, in_pa, avail, hok, hid, -, -, -, -⟩ := create_product_run url h
  exact ⟨out, hok, hid⟩

/-- C1 counterexample: a record with an `id` and an `attributes` map but
no `sp.handle` raises (`KeyError` on line 197), so `create_product` does
not return for every record with `id` and `attributes`. -/
theorem create_product_missing_handle_counterexample :
    create_product [("id".toList, JVal.null), ("attributes".toList, JVal.obj [])]
      [] = .error () := by rfl

/-- C1 witness: a concrete well-formed product runs to completion. -/
theorem create_product_total_witness :
    productWF [("id".toList, JVal.str "1".toList),
      ("attributes".toList, JVal.obj
        [("sp.handle".toList, JVal.str "h".toList),
         ("sp.status".toList, JVal.str "ACTIVE".toList)])] = true ∧
    ∃ out, create_product [("id".toList, JVal.str "1".toList),
      ("attributes".toList, JVal.obj
        [("sp.handle".toList, JVal.str "h".toList),
         ("sp.status".toList, JVal.str "ACTIVE".toList)])] [] = .ok out ∧
      lookupA [("id".toList, JVal.str "1".toList),
        ("attributes".toList, JVal.obj
          [("sp.handle".toList, JVal.str "h".toList),
           ("sp.status".toList, JVal.str "ACTIVE".toList)])] "id".toList =
        some out.id :=
  ⟨by decide, create_product_total [] (by decide)⟩

/-- C7 (amended): the root `availability` is computed as a Boolean that
is true exactly when the status compares equal to `"ACTIVE"` and a total
inventory comparing greater than zero is present, and every variant
emitted by the variant pipeline carries a Boolean `availability` that is
true exactly when the variant's flattened sell-ability flag is present
and truthy (not necessarily the Boolean `true`). -/
theorem availability_semantics :
    (∀ (in_pa : Assoc) (st : JVal),
      lookupA in_pa "sp.status".toList = some st →
      inventoryWF (lookupA in_pa "sp.totalInventory".toList) = true →
      ∃ avail, root_availability in_pa = .ok avail ∧
        (avail = true ↔ (pyEq st (.str "ACTIVE".toList) = true ∧
          ∃ inv, lookupA in_pa "sp.totalInventory".toList = some inv ∧
            jvGtZero inv = .ok true))) ∧
    (∀ (v k : JVal) (attrs : Assoc), variantWF v = true →
      processVariant v = .ok (some (k, attrs)) →
      ∃ ra, getKeyJ v "attributes".toList = .ok (.obj ra) ∧
        ∃ b, lookupA attrs "availability".toList = some (.bool b) ∧
          (b = true ↔ ∃ fv, lookupA (flatten_dict ra [])
              (normalize_key "sv.availableForSale".toList) = some fv ∧
            pyTruthy fv = true)) := by
  constructor
  · exact fun in_pa st hst hinv => root_availability_ok hst hinv
  · intro v k attrs hwf hok
    obtain ⟨r, hr, hchar⟩ := processVariant_ok hwf
    rw [hok] at hr
    injection hr with hr2
    obtain ⟨-, -, -, -, ⟨ra, hra, b, hb, hbiff⟩, -⟩ := hchar k attrs hr2.symm
    exact ⟨ra, hra, b, hb, hbiff⟩

/-- C7 counterexample: a variant whose sell-ability flag is the string
`"no"` (present and truthy, but not the Boolean `true`) is emitted with
`availability = true`, so "present and true" does not describe the code:
any truthy value turns availability on. -/
theorem variant_availability_truthy_counterexample :
    processVariant (JVal.obj [("attributes".toList,
        JVal.obj [("sv.availableForSale".toList, JVal.str "no".toList)])]) =
      .ok (some (JVal.null,
        [("sv_availableForSale".toList, JVal.str "no".toList),
         ("availability".toList, JVal.bool true)])) := by rfl

/-- C7 witness: the two parts applied to a concrete active product and a
concrete sellable variant. -/
theorem availability_semantics_witness :
    (∃ avail, root_availability
        [("sp.status".toList, JVal.str "ACTIVE".toList),
         ("sp.totalInventory".toList, JVal.num 5)] = .ok avail ∧
      (avail = true ↔ (pyEq (JVal.str "ACTIVE".toList)
          (.str "ACTIVE".toList) = true ∧
        ∃ inv, lookupA [("sp.status".toList, JVal.str "ACTIVE".toList),
            ("sp.totalInventory".toList, JVal.num 5)]
            "sp.totalInventory".toList = some inv ∧
          jvGtZero inv = .ok true))) ∧
    (∃ ra, getKeyJ (JVal.obj [("attributes".toList,
          JVal.obj [("sv.availableForSale".toList, JVal.bool true)])])
        "attributes".toList = .ok (.obj ra) ∧
      ∃ b, lookupA [("sv_availableForSale".toList, JVal.bool true),
          ("availability".toList, JVal.bool true)]
          "availability".toList = some (.bool b) ∧
        (b = true ↔ ∃ fv, lookupA (flatten_dict ra [])
            (normalize_key "sv.availableForSale".toList) = some fv ∧
          pyTruthy fv = true)) :=
  ⟨availability_semantics.1 _ (JVal.str "ACTIVE".toList) (by decide) (by decide),
   availability_semantics.2 _ JVal.null _ (by decide) (by rfl)⟩

/-! ## The graph reconstructor (`shopify_products.py`) -/

/-- Coerce to a list, raising otherwise (models `for t in v` where every
non-list JSON value either fails to iterate or yields elements on which
the subsequent subscripting raises). -/
def asArr : JVal → Except Unit (List JVal)
  | .arr l => .ok l
  | _ => .error ()

/-- `parent_to_children[parent].append(child)` on a `defaultdict(list)`
keyed by the raw `__parentId` values (compared with Python `==`). -/
def appendChild (p2c : List (JVal × List Str)) (parent : JVal) (child : Str) :
    List (JVal × List Str) :=
  match p2c with
  | [] => [(parent, [child])]
  | (k, cs) :: rest =>
    if pyEq k parent then (k, cs ++ [child]) :: rest
    else (k, cs) :: appendChild rest parent child

/-- `parent_to_children[parent]` (a `defaultdict(list)`: missing keys
yield `[]`). -/
def childrenOf (p2c : List (JVal × List Str)) (parent : JVal) : List Str :=
  match p2c with
  | [] => []
  | (k, cs) :: rest => if pyEq k parent then cs else childrenOf rest parent

/-- `index_object` of `shopify_products.py` (lines 26-35): key the record
by its `id` (a collection by `id + __parentId`), store it, and register
it under its parent. -/
def index_object (o : JVal) (objects : Assoc) (p2c : List (JVal × List Str)) :
    Except Unit (Assoc × List (JVal × List Str)) := do
  let fields ← asObj o
  let idv ← getKey fields "id".toList
  let ids ← asStr idv
  let key ← (if hasSub "/shopify/Collection/".toList ids then do
      let pv ← getKey fields "__parentId".toList
      let ps ← asStr pv
      pure (ids ++ ps)
    else pure ids)
  let objects2 := updA objects key o
  if memA fields "__parentId".toList then do
    let pv ← getKey fields "__parentId".toList
    pure (objects2, appendChild p2c pv key)
  else pure (objects2, p2c)

/-- `set.add` on the collected locales (Python `==` on the strings). -/
def addLocale (ls : List Str) (l : Str) : List Str :=
  if ls.any (fun x => x == l) then ls else ls ++ [l]

/-- Insert into a sorted list of strings (Python `sorted` comparison). -/
def insertSorted (s : Str) : List Str → List Str
  | [] => [s]
  | t :: ts => if strCmp s t = Ordering.lt then s :: t :: ts
    else t :: insertSorted s ts

/-- `sorted` on a list of strings. -/
def sortStrs : List Str → List Str
  | [] => []
  | s :: rest => insertSorted s (sortStrs rest)

/-- `"-".join`. -/
def joinDash : List Str → Str
  | [] => []
  | [s] => s
  | s :: rest => s ++ '-' :: joinDash rest

/-- The translation merge (lines 44-54 for collections, 65-81 for
products): fold the `translations` entries into the record, write
`translation_done` and drop `translations`; only products rename
`body_html` to `descriptionHtml`. -/
def applyTranslations (obj : Assoc) (is_product : Bool) : Except Unit Assoc := do
  match lookupA obj "translations".toList with
  | some tv =>
    if pyTruthy tv then do
      let ts ← asArr tv
      let acc ← ts.foldlM (fun (acc : Assoc × List Str) t => do
          let lv ← getKeyJ t "locale".toList
          let ls ← asStr lv
          let kv ← getKeyJ t "key".toList
          let ks ← asStr kv
          let vv ← getKeyJ t "value".toList
          let obj2 := (if is_product && ks == "body_html".toList then
              updA acc.1 "descriptionHtml".toList vv
            else updA acc.1 ks vv)
          pure (obj2, addLocale acc.2 ls)) (obj, [])
      let obj3 := updA acc.1 "translation_done".toList
        (.str (joinDash (sortStrs acc.2)))
      pure (delA obj3 "translations".toList)
    else pure obj
  | none => pure obj

/-- `create_variant` of `shopify_products.py` (lines 89-100): collect the
variant's metafields and write them onto the indexed variant record
(mutating the index). -/
def create_variant (variant_id : Str) (objects : Assoc)
    (p2c : List (JVal × List Str)) : Except Unit (JVal × Assoc) := do
  let children := childrenOf p2c (.str variant_id)
  let metafields ← children.foldlM (fun (acc : List JVal) child_id => do
      if hasSub "/Metafield/".toList child_id then do
        let co ← getKey objects child_id
        let cf ← asObj co
        let pv ← getKey cf "__parentId".toList
        let ps ← asStr pv
        if hasSub "/ProductVariant/".toList ps then pure (acc ++ [co])
        else pure acc
      else pure acc) []
  let vv ← getKey objects variant_id
  let vf ← asObj vv
  let vf2 := updA vf "metafields".toList (.arr metafields)
  pure (.obj vf2, updA objects variant_id (.obj vf2))

/-- `create_product_from_objects` of `shopify_products.py` (lines 37-87):
attach translated copies of the child collections, the child variants
(mutating the index) and the product metafields, then merge the product's
own translations and write the three lists onto the indexed product
record. -/
def create_product_from_objects (k : Str) (objects : Assoc)
    (p2c : List (JVal × List Str)) : Except Unit (JVal × Assoc) := do
  let children := childrenOf p2c (.str k)
  let acc ← children.foldlM
    (fun (acc : List JVal × List JVal × List JVal × Assoc) child_id => do
      if hasSub "/Collection/".toList child_id then do
        let co ← getKey acc.2.2.2 child_id
        let cf ← asObj co
        let cf2 ← applyTranslations cf false
        pure (acc.1 ++ [JVal.obj cf2], acc.2.1, acc.2.2.1, acc.2.2.2)
      else if hasSub "/ProductVariant/".toList child_id then do
        let vr ← create_variant child_id acc.2.2.2 p2c
        pure (acc.1, acc.2.1 ++ [vr.1], acc.2.2.1, vr.2)
      else if hasSub "/Metafield/".toList child_id then do
        let co ← getKey acc.2.2.2 child_id
        let cf ← asObj co
        let pv ← getKey cf "__parentId".toList
        let ps ← asStr pv
        if hasSub "/Product/".toList ps then
          pure (acc.1, acc.2.1, acc.2.2.1 ++ [co], acc.2.2.2)
        else pure acc
      else pure acc) ([], [], [], objects)
  let pv ← getKey acc.2.2.2 k
  let pf ← asObj pv
  let pf2 ← applyTranslations pf true
  let pf3 := updA (updA (updA pf2 "collections".toList (.arr acc.1))
      "variants".toList (.arr acc.2.1)) "metafields".toList (.arr acc.2.2.1)
  pure (.obj pf3, updA acc.2.2.2 k (.obj pf3))

/-- The body of the indexing loop (lines 16-17): `none` models a line
`json.loads` cannot parse. -/
def index_line (acc : Assoc × List (JVal × List Str)) (line : Option JVal) :
    Except Unit (Assoc × List (JVal × List Str)) :=
  match line with
  | none => .error ()
  | some o => index_object o acc.1 acc.2

/-- `parse_shopify_objects` of `shopify_products.py` (lines 10-24): index
every line of the stream, then build one aggregated product per indexed
key that contains `/Product/` but not `/Collection/`. -/
def parse_shopify_objects (stream : List (Option JVal)) :
    Except Unit (List JVal) := do
  let st1 ← stream.foldlM index_line ([], [])
  let st2 ← st1.1.foldlM
    (fun (acc : List JVal × Assoc) kv => do
      if hasSub "/Product/".toList kv.1 && !(hasSub "/Collection/".toList kv.1) then do
        let pr ← create_product_from_objects kv.1 acc.2 st1.2
        pure (acc.1 ++ [pr.1], pr.2)
      else pure acc) ([], st1.1)
  pure st2.1

/-- A fold aborts as soon as one element makes the step raise. -/
theorem foldlM_err_mem {α β : Type} {f : β → α → Except Unit β} {x : α}
    (hx : ∀ b, f b x = .error ()) :
    ∀ (l1 l2 : List α) (acc : β), (l1 ++ x :: l2).foldlM f acc = .error () := by
  intro l1
  induction l1 with
  | nil =>
    intro l2 acc
    rw [List.nil_append, List.foldlM_cons, hx acc, exc_bind_err]
  | cons y ys ih =>
    intro l2 acc
    rw [List.cons_append, List.foldlM_cons]
    rcases hfy : f acc y with u | b2
    · cases u
      rw [exc_bind_err]
    · rw [exc_bind_ok]
      exact ih l2 b2

/-- C2 (corrected): the pass has no handler — an unparsable line
(`json.loads` raises) or a record without an `id` (`KeyError` on
line 27) aborts the whole reconstruction instead of being skipped,
wherever it sits in the stream. -/
theorem parse_aborts_on_malformed :
    (∀ pre post, parse_shopify_objects (pre ++ none :: post) = .error ()) ∧
    (∀ pre post o, (∃ f, o = JVal.obj f ∧ lookupA f "id".toList = none) →
      parse_shopify_objects (pre ++ some o :: post) = .error ()) := by
  constructor
  · intro pre post
    have hstep : ∀ b : Assoc × List (JVal × List Str),
        index_line b none = .error () := fun b => rfl
    rw [parse_shopify_objects, foldlM_err_mem hstep pre post, exc_bind_err]
  · rintro pre post o ⟨f, rfl, hid⟩
    have hstep : ∀ b : Assoc × List (JVal × List Str),
        index_line b (some (JVal.obj f)) = .error () := by
      intro b
      simp only [index_line, index_object, asObj, exc_bind_ok, getKey, hid,
        exc_bind_err]
    rw [parse_shopify_objects, foldlM_err_mem hstep pre post, exc_bind_err]

/-- C2 counterexample: a stream consisting of one unparsable line aborts
the pass with an error rather than yielding an empty product list. -/
theorem parse_unparsable_counterexample :
    parse_shopify_objects [none] = .error () := by rfl

/-- C2 witness: the abort theorem applied to a concrete stream with a
trailing unparsable line and to a concrete record without an `id`. -/
theorem parse_aborts_witness :
    parse_shopify_objects
      ([some (JVal.obj [("id".toList, JVal.str "gid://shopify/Product/1".toList)])]
        ++ none :: []) = .error () ∧
    parse_shopify_objects ([] ++ some (JVal.obj [("x".toList, JVal.null)]) :: []) =
      .error () :=
  ⟨parse_aborts_on_malformed.1 _ _,
   parse_aborts_on_malformed.2 _ _ _ ⟨_, rfl, rfl⟩⟩

/-- Inversion of a successful `Except` bind. -/
theorem exc_bind_ok_inv {α β : Type} {e : Except Unit α} {f : α → Except Unit β}
    {b : β} (h : (e >>= f) = .ok b) : ∃ a, e = .ok a ∧ f a = .ok b := by
  rcases e with u | a
  · cases u
    rw [exc_bind_err] at h
    cases h
  · rw [exc_bind_ok] at h
    exact ⟨a, rfl, h⟩

/-- A successful fold preserves any invariant its successful steps
preserve. -/
theorem foldlM_pres {α β : Type} {f : β → α → Except Unit β} {P : β → Prop}
    (l : List α) (acc : β) (hacc : P acc)
    (hstep : ∀ b a b2, a ∈ l → P b → f b a = .ok b2 → P b2) :
    ∀ r, l.foldlM f acc = .ok r → P r := by
  induction l generalizing acc with
  | nil =>
    intro r hr
    rw [List.foldlM_nil, exc_pure] at hr
    injection hr with h2
    exact h2 ▸ hacc
  | cons x xs ih =>
    intro r hr
    rw [List.foldlM_cons] at hr
    obtain ⟨b2, hb2, hr2⟩ := exc_bind_ok_inv hr
    exact ih b2 (hstep acc x b2 (List.mem_cons_self _ _) hacc hb2)
      (fun b a b3 ha => hstep b a b3 (List.mem_cons_of_mem _ ha)) r hr2

/-- `create_variant` changes the index only at the variant's own key. -/
theorem create_variant_frame {vid : Str} {objects : Assoc}
    {p2c : List (JVal × List Str)} {v : JVal} {objs2 : Assoc}
    (h : create_variant vid objects p2c = .ok (v, objs2)) :
    ∀ ck, ck ≠ vid → lookupA objs2 ck = lookupA objects ck := by
  simp only [create_variant] at h
  obtain ⟨mfs, hmf, h⟩ := exc_bind_ok_inv h
  obtain ⟨vv, hvv, h⟩ := exc_bind_ok_inv h
  obtain ⟨vf, hvf, h⟩ := exc_bind_ok_inv h
  simp only [exc_pure, Except.ok.injEq, Prod.mk.injEq] at h
  obtain ⟨-, h2b⟩ := h
  intro ck hck
  rw [← h2b, lookupA_updA_ne _ _ (fun hc => hck hc.symm)]

/-- Building one product never changes a collection-keyed entry of the
index: the collection branch works on a copy, variants are written under
their own keys and the product under its own (non-collection) key. -/
theorem create_product_frame {k : Str} {objects : Assoc}
    {p2c : List (JVal × List Str)} {p : JVal} {objs2 : Assoc}
    (hk : hasSub "/Collection/".toList k = false)
    (h : create_product_from_objects k objects p2c = .ok (p, objs2)) :
    ∀ ck, hasSub "/Collection/".toList ck = true →
      lookupA objs2 ck = lookupA objects ck := by
  simp only [create_product_from_objects] at h
  obtain ⟨acc, hacc, h⟩ := exc_bind_ok_inv h
  have hinv : ∀ ck, hasSub "/Collection/".toList ck = true →
      lookupA acc.2.2.2 ck = lookupA objects ck := by
    refine @foldlM_pres _ _ _
      (fun st => ∀ ck, hasSub "/Collection/".toList ck = true →
        lookupA st.2.2.2 ck = lookupA objects ck) _ _ ?_ ?_ acc hacc
    · exact fun ck _ => rfl
    intro b a b2 ha hb hstep ck hck
    beta_reduce at hstep
    by_cases hcol : hasSub "/Collection/".toList a = true
    · rw [if_pos hcol] at hstep
      obtain ⟨co, hco, hstep⟩ := exc_bind_ok_inv hstep
      obtain ⟨cf, hcf, hstep⟩ := exc_bind_ok_inv hstep
      obtain ⟨cf2, hcf2, hstep⟩ := exc_bind_ok_inv hstep
      simp only [exc_pure, Except.ok.injEq] at hstep
      rw [← hstep]
      exact hb ck hck
    · rw [if_neg hcol] at hstep
      by_cases hvar : hasSub "/ProductVariant/".toList a = true
      · rw [if_pos hvar] at hstep
        obtain ⟨vr, hvr, hstep⟩ := exc_bind_ok_inv hstep
        simp only [exc_pure, Except.ok.injEq] at hstep
        rw [← hstep]
        have hne : ck ≠ a := fun hc => by
          rw [← hc] at hcol
          exact hcol hck
        rw [create_variant_frame hvr ck hne]
        exact hb ck hck
      · rw [if_neg hvar] at hstep
        by_cases hmeta : hasSub "/Metafield/".toList a = true
        · rw [if_pos hmeta] at hstep
          obtain ⟨co, hco, hstep⟩ := exc_bind_ok_inv hstep
          obtain ⟨cf, hcf, hstep⟩ := exc_bind_ok_inv hstep
          obtain ⟨pv, hpv, hstep⟩ := exc_bind_ok_inv hstep
          obtain ⟨ps, hps, hstep⟩ := exc_bind_ok_inv hstep
          by_cases hpp : hasSub "/Product/".toList ps = true
          · rw [if_pos hpp] at hstep
            simp only [exc_pure, Except.ok.injEq] at hstep
            rw [← hstep]
            exact hb ck hck
          · rw [if_neg hpp] at hstep
            simp only [exc_pure, Except.ok.injEq] at hstep
            rw [← hstep]
            exact hb ck hck
        · rw [if_neg hmeta] at hstep
          simp only [exc_pure, Except.ok.injEq] at hstep
          rw [← hstep]
          exact hb ck hck
  obtain ⟨pv, hpv, h⟩ := exc_bind_ok_inv h
  obtain ⟨pf, hpf, h⟩ := exc_bind_ok_inv h
  obtain ⟨pf2, hpf2, h⟩ := exc_bind_ok_inv h
  simp only [exc_pure, Except.ok.injEq, Prod.mk.injEq] at h
  obtain ⟨-, h2b⟩ := h
  intro ck hck
  have hne : k ≠ ck := fun hc => by
    rw [hc, hck] at hk
    cases hk
  rw [← h2b, lookupA_updA_ne _ _ hne]
  exact hinv ck hck

/-- Fixture: a bare product record. -/
def exProduct (pid : Str) : JVal := .obj [("id".toList, .str pid)]

/-- Fixture: a collection record attached to `parent`, carrying one
French title translation with payload `v`. -/
def exCollection (parent : Str) (v : JVal) : JVal :=
  .obj [("id".toList, .str "gid://shopify/Collection/9".toList),
        ("__parentId".toList, .str parent),
        ("title".toList, .str "t".toList),
        ("translations".toList, .arr [.obj
          [("locale".toList, .str "fr".toList),
           ("key".toList, .str "title".toList),
           ("value".toList, v)]])]

/-- Fixture: the collection as the translation merge rewrites it. -/
def exTranslated (parent : Str) (v : JVal) : JVal :=
  .obj [("id".toList, .str "gid://shopify/Collection/9".toList),
        ("__parentId".toList, .str parent),
        ("title".toList, v),
        ("translation_done".toList, .str "fr".toList)]

/-- Fixture: the aggregated output product. -/
def exOut (pid : Str) (c : JVal) : JVal :=
  .obj [("id".toList, .str pid),
        ("collections".toList, .arr [c]),
        ("variants".toList, .arr []),
        ("metafields".toList, .arr [])]

/-- Fixture: two products each referencing the same collection id under
its own parent. -/
def exStream (v w : JVal) : List (Option JVal) :=
  [some (exProduct "gid://shopify/Product/1".toList),
   some (exCollection "gid://shopify/Product/1".toList v),
   some (exProduct "gid://shopify/Product/2".toList),
   some (exCollection "gid://shopify/Product/2".toList w)]

/-- Fixture: the index the first pass builds for `exStream`. -/
def exObjects (v w : JVal) : Assoc :=
  [("gid://shopify/Product/1".toList, exProduct "gid://shopify/Product/1".toList),
   ("gid://shopify/Collection/9gid://shopify/Product/1".toList,
     exCollection "gid://shopify/Product/1".toList v),
   ("gid://shopify/Product/2".toList, exProduct "gid://shopify/Product/2".toList),
   ("gid://shopify/Collection/9gid://shopify/Product/2".toList,
     exCollection "gid://shopify/Product/2".toList w)]

/-- Fixture: the parent index the first pass builds for `exStream`. -/
def exP2C : List (JVal × List Str) :=
  [(.str "gid://shopify/Product/1".toList,
     ["gid://shopify/Collection/9gid://shopify/Product/1".toList]),
   (.str "gid://shopify/Product/2".toList,
     ["gid://shopify/Collection/9gid://shopify/Product/2".toList])]

/-- C8: a collection referenced by two root entities (same collection id,
different parents) is re-keyed per parent, each entity receives its own
correctly translated copy, and building one entity leaves every
collection-keyed index entry — in particular the other entity's raw
collection record — unchanged (the general frame property, plus the
two-entity stream computed end to end). -/
theorem collection_copy_isolation :
    (∀ (k : Str) (objects : Assoc) (p2c : List (JVal × List Str)) (p : JVal)
      (objs2 : Assoc), hasSub "/Collection/".toList k = false →
      create_product_from_objects k objects p2c = .ok (p, objs2) →
      ∀ ck, hasSub "/Collection/".toList ck = true →
        lookupA objs2 ck = lookupA objects ck) ∧
    (∀ v w : JVal, parse_shopify_objects (exStream v w) =
      .ok [exOut "gid://shopify/Product/1".toList
             (exTranslated "gid://shopify/Product/1".toList v),
           exOut "gid://shopify/Product/2".toList
             (exTranslated "gid://shopify/Product/2".toList w)]) ∧
    (∀ v w : JVal, ∃ objs2,
      create_product_from_objects "gid://shopify/Product/1".toList
        (exObjects v w) exP2C =
        .ok (exOut "gid://shopify/Product/1".toList
          (exTranslated "gid://shopify/Product/1".toList v), objs2) ∧
      lookupA objs2 "gid://shopify/Collection/9gid://shopify/Product/1".toList =
        some (exCollection "gid://shopify/Product/1".toList v) ∧
      lookupA objs2 "gid://shopify/Collection/9gid://shopify/Product/2".toList =
        some (exCollection "gid://shopify/Product/2".toList w)) := by
  refine ⟨fun k objects p2c p objs2 hk h => create_product_frame hk h, ?_, ?_⟩
  · intro v w
    rfl
  · intro v w
    exact ⟨_, rfl, rfl, rfl⟩

/-- C8 witness: the frame part applied to the concrete two-entity index,
checking that building the first product leaves the second product's
collection record untouched. -/
theorem collection_copy_isolation_witness :
    lookupA [("gid://shopify/Product/1".toList,
        exOut "gid://shopify/Product/1".toList
          (exTranslated "gid://shopify/Product/1".toList JVal.null)),
      ("gid://shopify/Collection/9gid://shopify/Product/1".toList,
        exCollection "gid://shopify/Product/1".toList JVal.null),
      ("gid://shopify/Product/2".toList, exProduct "gid://shopify/Product/2".toList),
      ("gid://shopify/Collection/9gid://shopify/Product/2".toList,
        exCollection "gid://shopify/Product/2".toList JVal.null)]
      "gid://shopify/Collection/9gid://shopify/Product/2".toList =
    lookupA (exObjects JVal.null JVal.null)
      "gid://shopify/Collection/9gid://shopify/Product/2".toList :=
  collection_copy_isolation.1 "gid://shopify/Product/1".toList
    (exObjects JVal.null JVal.null) exP2C
    (exOut "gid://shopify/Product/1".toList
      (exTranslated "gid://shopify/Product/1".toList JVal.null))
    _ (by decide) (by rfl)
    "gid://shopify/Collection/9gid://shopify/Product/2".toList (by decide)

/-- String comparison is antisymmetric. -/
theorem strCmp_swap : ∀ a b : Str, strCmp b a = (strCmp a b).swap := by
  intro a
  induction a with
  | nil => intro b; cases b <;> rfl
  | cons c cs ih =>
    intro b
    cases b with
    | nil => rfl
    | cons d ds =>
      rw [strCmp, strCmp]
      by_cases h1 : c.toNat < d.toNat
      · rw [if_neg (by omega), if_pos h1, if_pos h1]
        rfl
      · by_cases h2 : d.toNat < c.toNat
        · rw [if_pos h2, if_neg h1, if_pos h2]
          rfl
        · rw [if_neg h2, if_neg h1, if_neg h1, if_neg h2]
          exact ih ds

/-- Boolean equality tests are symmetric. -/
theorem beq_symm {α : Type} [BEq α] [LawfulBEq α] (a b : α) :
    (a == b) = (b == a) := by
  cases hab : a == b
  · rw [beq_eq_false_iff_ne.mpr (Ne.symm (beq_eq_false_iff_ne.mp hab))]
  · rw [eq_of_beq hab, beq_self_eq_true]

/-- Python `==` is symmetric on JSON values. -/
theorem pyEq_symm_all :
    (∀ v w, pyEq v w = pyEq w v) ∧
      (∀ x y : List (Str × JVal), pyEqO x y = pyEqO y x) ∧
      (∀ a b : List JVal, pyEqL a b = pyEqL b a) := by
  refine pyEq.mutual_induct
    (fun v w => pyEq v w = pyEq w v)
    (fun x y => pyEqO x y = pyEqO y x)
    (fun a b => pyEqL a b = pyEqL b a)
    ?_ ?_ ?_ ?_ ?_ ?_ ?_ ?_ ?_ ?_ ?_ ?_
  · intro t w a b hb ha
    cases t <;> cases w <;>
      first
        | rfl
        | exact beq_symm _ _
        | cases ha
  · exact fun _ => rfl
  · intro a b _
    exact beq_symm a b
  · intro a b _ ih
    exact ih
  · intro a b _ ih
    exact ih
  · intro t x h1 h2 h3 h4 h5
    cases t <;> cases x <;>
      first
        | exact (h1 _ _ rfl rfl).elim
        | exact (h2 rfl rfl).elim
        | exact (h3 _ _ rfl rfl).elim
        | exact (h4 _ _ rfl rfl).elim
        | exact (h5 _ _ rfl rfl).elim
        | rfl
  · rfl
  · intro x xs y ys ih1 ih2
    rw [pyEqL, pyEqL, ih1, ih2]
  · intro t x h1 h2
    cases t <;> cases x <;>
      first
        | exact (h1 rfl rfl).elim
        | exact (h2 _ _ _ _ rfl rfl).elim
        | rfl
  · rfl
  · intro k1 v1 xs k2 v2 ys ih1 ih2
    rw [pyEqO, pyEqO, ih1, ih2]
    by_cases hk : k1 = k2
    · rw [hk]
    · rw [decide_eq_false hk, decide_eq_false (fun hc => hk hc.symm)]
  · intro t x h1 h2
    cases t with
    | nil =>
      cases x with
      | nil => exact (h1 rfl rfl).elim
      | cons p ys => cases p; rfl
    | cons p xs =>
      cases x with
      | nil => cases p; rfl
      | cons q ys =>
        cases p; cases q
        exact (h2 _ _ _ _ _ _ rfl rfl).elim

/-- Python `==` is symmetric. -/
theorem pyEq_symm (a b : JVal) : pyEq a b = pyEq b a := pyEq_symm_all.1 a b

/-- The numeric three-way comparison is antisymmetric. -/
theorem iteCmp_swap (x y : ℚ) :
    (if y < x then Ordering.lt else if x < y then Ordering.gt else Ordering.eq) =
    (if x < y then Ordering.lt else if y < x then Ordering.gt else
      Ordering.eq).swap := by
  by_cases h1 : x < y
  · rw [if_neg (lt_asymm h1), if_pos h1, if_pos h1]
    rfl
  · by_cases h2 : y < x
    · rw [if_pos h2, if_neg h1, if_pos h2]
      rfl
    · rw [if_neg h2, if_neg h1, if_neg h1, if_neg h2]
      rfl

/-- Python's ordering comparison is antisymmetric on JSON values. -/
theorem jvCmp_swap_all :
    (∀ v w, jvCmp w v = (jvCmp v w).map Ordering.swap) ∧
      (∀ a b : List JVal, arrCmp b a = (arrCmp a b).map Ordering.swap) := by
  refine jvCmp.mutual_induct
    (fun v w => jvCmp w v = (jvCmp v w).map Ordering.swap)
    (fun a b => arrCmp b a = (arrCmp a b).map Ordering.swap)
    ?_ ?_ ?_ ?_ ?_ ?_ ?_ ?_ ?_ ?_
  · intro a b
    exact congrArg some (strCmp_swap a b)
  · intro a b ih
    exact ih
  · intro v w h1 h2 a b hb ha
    cases v <;> cases w <;>
      first
        | rfl
        | exact congrArg some (iteCmp_swap _ _)
        | cases ha
        | cases hb
  · intro v w h1 h2 h3
    cases v <;> cases w <;>
      first
        | rfl
        | exact (h1 _ _ rfl rfl).elim
        | exact (h2 _ _ rfl rfl).elim
        | exact (h3 _ _ rfl rfl).elim
  · rfl
  · intro h t; rfl
  · intro h t; rfl
  · intro x xs y ys hpy ih
    rw [arrCmp, arrCmp, pyEq_symm y x, hpy]
    rw [if_pos rfl, if_pos rfl]
    exact ih
  · intro x xs y ys hpy hcmp ih1 ih2
    rw [arrCmp, arrCmp, pyEq_symm y x, if_neg hpy, if_neg hpy, ih1, hcmp]
    exact ih2
  · intro x xs y ys hpy hne ih1
    rcases hxy : jvCmp x y with _ | o
    · rw [arrCmp, arrCmp, pyEq_symm y x, if_neg hpy, if_neg hpy, ih1, hxy]
      rfl
    · cases o with
      | eq => exact (hne hxy).elim
      | lt =>
        rw [arrCmp, arrCmp, pyEq_symm y x, if_neg hpy, if_neg hpy, ih1, hxy]
        rfl
      | gt =>
        rw [arrCmp, arrCmp, pyEq_symm y x, if_neg hpy, if_neg hpy, ih1, hxy]
        rfl

/-- If `a < b` then not `b < a` (and both comparisons succeed). -/
theorem jvLtE_true_false {a b : JVal} (h : jvLtE a b = .ok true) :
    jvLtE b a = .ok false := by
  rcases hc : jvCmp a b with _ | o
  · rw [jvLtE, hc] at h
    cases h
  · rw [jvLtE, hc] at h
    injection h with h2
    have ho : o = Ordering.lt := by
      cases o <;> first | rfl | cases h2
    subst ho
    rw [jvLtE, jvCmp_swap_all.1 a b, hc]
    rfl

/-! ## The market-metadata loader (`load_market_data`, lines 303-374) -/

/-- Lookup in a Python dict keyed by raw JSON values. -/
def lookupPy {β : Type} (l : List (JVal × β)) (k : JVal) : Option β :=
  match l with
  | [] => none
  | (k2, v) :: rest => if pyEq k2 k then some v else lookupPy rest k

/-- `data.get("id", "").startswith(prefix)`: a missing id compares as the
empty string, a non-text id raises (`startswith` of a non-`str`). -/
def idStartsWith (fields : Assoc) (pre : Str) : Except Unit Bool :=
  match lookupA fields "id".toList with
  | none => .ok (leadsWith pre [])
  | some (.str s) => .ok (leadsWith pre s)
  | some _ => .error ()

/-- One market entry `{"handle": ..., "name": ..., "rootUrls"?: ...}` of
a product's markets list (`rootUrls` present only when truthy). -/
structure MarketEntry where
  handle : JVal
  name : JVal
  urls : Option JVal
  deriving DecidableEq

/-- One value of the `products` table:
`{"handle": ..., "title": ..., "markets": [...]}`. -/
structure ProdInfo where
  handle : JVal
  title : JVal
  markets : List MarketEntry
  deriving DecidableEq

/-- The first pass (lines 314-328): collect markets by publication and
root URLs by market. -/
def market_pass1
    (st : List (JVal × (JVal × JVal × JVal)) × List (JVal × JVal))
    (line : Option JVal) :
    Except Unit (List (JVal × (JVal × JVal × JVal)) × List (JVal × JVal)) := do
  match line with
  | none => .error ()
  | some d => do
    let fields ← asObj d
    let isM ← idStartsWith fields "gid://shopify/Market/".toList
    if isM then do
      let pid ← getKey fields "__parentId".toList
      let idv ← getKey fields "id".toList
      let hv ← getKey fields "handle".toList
      let nv ← getKey fields "name".toList
      pure (updPy st.1 pid (idv, hv, nv), st.2)
    else if memA fields "rootUrls".toList then do
      let pid ← getKey fields "__parentId".toList
      let uv ← getKey fields "rootUrls".toList
      pure (st.1, updPy st.2 pid uv)
    else pure st

/-- The second pass (lines 330-360): fill the `products` table, attaching
each publication's market once per handle. -/
def market_pass2 (mbp : List (JVal × (JVal × JVal × JVal)))
    (ubm : List (JVal × JVal))
    (products : List (Str × ProdInfo)) (line : Option JVal) :
    Except Unit (List (Str × ProdInfo)) := do
  match line with
  | none => .error ()
  | some d => do
    let fields ← asObj d
    let isP ← idStartsWith fields "gid://shopify/Product/".toList
    if isP then do
      let idv ← getKey fields "id".toList
      let pid ← asStr idv
      let pubv ← getKey fields "__parentId".toList
      let hv ← getKey fields "handle".toList
      let tv := (lookupA fields "title".toList).getD (.str [])
      let old := (lookupA products pid).getD ⟨.str [], .str [], []⟩
      let info1 : ProdInfo := ⟨hv, tv, old.markets⟩
      match lookupPy mbp pubv with
      | some mi => do
        let md : MarketEntry := ⟨mi.2.1, mi.2.2,
          match lookupPy ubm mi.1 with
          | some u => if pyTruthy u then some u else none
          | none => none⟩
        if info1.markets.any (fun m => pyEq m.handle md.handle) then
          pure (updA products pid info1)
        else
          pure (updA products pid ⟨info1.handle, info1.title,
            info1.markets ++ [md]⟩)
      | none => pure (updA products pid info1)
    else pure products

/-- Insert one market into a handle-sorted list (the comparison raises on
un-orderable handles, as Python's `sort` does). -/
def insertMarket (m : MarketEntry) : List MarketEntry →
    Except Unit (List MarketEntry)
  | [] => .ok [m]
  | n :: ns => do
    let lt ← jvLtE m.handle n.handle
    if lt then pure (m :: n :: ns)
    else do
      let rest ← insertMarket m ns
      pure (n :: rest)

/-- `markets.sort(key=lambda x: x["handle"])` (line 367). -/
def sortMarkets (l : List MarketEntry) : Except Unit (List MarketEntry) :=
  l.foldlM (fun acc m => insertMarket m acc) []

/-- `load_market_data` of `bloomreach_products.py` (lines 303-374): two
passes over the stream, then keep only products with markets, their
markets sorted by handle. -/
def load_market_data (stream : List (Option JVal)) :
    Except Unit (List (Str × ProdInfo)) := do
  let st1 ← stream.foldlM market_pass1 ([], [])
  let products ← stream.foldlM (market_pass2 st1.1 st1.2) []
  let result ← products.foldlM
    (fun (res : List (Str × ProdInfo)) kv =>
      if !kv.2.markets.isEmpty then do
        let sorted ← sortMarkets kv.2.markets
        pure (res ++ [(kv.1, ⟨kv.2.handle, kv.2.title, sorted⟩)])
      else pure res) []
  pure result

/-- Inserting into a handle-sorted market list keeps it sorted, permutes
the inserted element in, and starts with the new element or the old
head. -/
theorem insertMarket_ok {m : MarketEntry} :
    ∀ {l out : List MarketEntry},
      List.Chain' (fun a b => jvLtE b.handle a.handle = .ok false) l →
      insertMarket m l = .ok out →
      List.Chain' (fun a b => jvLtE b.handle a.handle = .ok false) out ∧
      out.Perm (m :: l) ∧
      ∀ h2, out.head? = some h2 → h2 = m ∨ l.head? = some h2 := by
  intro l
  induction l with
  | nil =>
    intro out hs h
    rw [insertMarket] at h
    injection h with h2
    subst h2
    exact ⟨List.chain'_singleton m, List.Perm.refl _,
      fun h2 hh => Or.inl (by injection hh with h3; exact h3.symm)⟩
  | cons n ns ih =>
    intro out hs h
    rw [insertMarket] at h
    obtain ⟨lt, hlt, h⟩ := exc_bind_ok_inv h
    cases lt with
    | true =>
      rw [if_pos rfl, exc_pure] at h
      injection h with h2
      subst h2
      refine ⟨?_, List.Perm.refl _,
        fun h2 hh => Or.inl (by injection hh with h3; exact h3.symm)⟩
      exact List.chain'_cons.mpr ⟨jvLtE_true_false hlt, hs⟩
    | false =>
      rw [if_neg (by decide)] at h
      obtain ⟨rest, hrest, h⟩ := exc_bind_ok_inv h
      simp only [exc_pure, Except.ok.injEq] at h
      subst h
      obtain ⟨hchain, hperm, hhead⟩ := ih (List.Chain'.tail hs) hrest
      refine ⟨?_, ?_, fun h2 hh => Or.inr hh⟩
      · rw [List.chain'_cons']
        refine ⟨?_, hchain⟩
        intro h2 hh
        rcases hhead h2 hh with rfl | hh2
        · exact hlt
        · exact (List.chain'_cons'.mp hs).1 h2 hh2
      · exact (hperm.cons n).trans (List.Perm.swap m n ns)

/-- Sorting the market list succeeds only into a handle-sorted
permutation of the input. -/
theorem sortMarkets_ok {l out : List MarketEntry}
    (h : sortMarkets l = .ok out) :
    List.Chain' (fun a b => jvLtE b.handle a.handle = .ok false) out ∧
      out.Perm l := by
  rw [sortMarkets] at h
  suffices H : ∀ (l2 acc out2 : List MarketEntry),
      List.Chain' (fun a b => jvLtE b.handle a.handle = .ok false) acc →
      (l2.foldlM (fun acc m => insertMarket m acc) acc) = .ok out2 →
      List.Chain' (fun a b => jvLtE b.handle a.handle = .ok false) out2 ∧
        out2.Perm (acc ++ l2) by
    obtain ⟨hc, hp⟩ := H l [] out List.chain'_nil h
    exact ⟨hc, by simpa using hp⟩
  intro l2
  induction l2 with
  | nil =>
    intro acc out2 hacc h2
    rw [List.foldlM_nil, exc_pure] at h2
    injection h2 with h3
    subst h3
    exact ⟨hacc, by simp⟩
  | cons m ms ih =>
    intro acc out2 hacc h2
    rw [List.foldlM_cons] at h2
    obtain ⟨acc2, hacc2, h2⟩ := exc_bind_ok_inv h2
    obtain ⟨hc2, hp2, -⟩ := insertMarket_ok hacc hacc2
    obtain ⟨hc3, hp3⟩ := ih acc2 out2 hc2 h2
    exact ⟨hc3, hp3.trans ((hp2.append_right ms).trans List.perm_middle.symm)⟩

/-- The second pass keeps every stored market list free of duplicate
handles (the membership test on line 358 guards every append). -/
theorem market_pass2_pairwise {mbp : List (JVal × (JVal × JVal × JVal))}
    {ubm : List (JVal × JVal)} {products : List (Str × ProdInfo)}
    {line : Option JVal} {products2 : List (Str × ProdInfo)}
    (h : market_pass2 mbp ubm products line = .ok products2)
    (hP : ∀ kv ∈ products, List.Pairwise
      (fun a b : MarketEntry => pyEq a.handle b.handle = false) kv.2.markets) :
    ∀ kv ∈ products2, List.Pairwise
      (fun a b : MarketEntry => pyEq a.handle b.handle = false) kv.2.markets := by
  match line with
  | none => cases h
  | some d =>
    simp only [market_pass2] at h
    obtain ⟨fields, hf, h⟩ := exc_bind_ok_inv h
    obtain ⟨isP, hisP, h⟩ := exc_bind_ok_inv h
    cases isP with
    | false =>
      rw [if_neg (by decide), exc_pure] at h
      injection h with h2
      subst h2
      exact hP
    | true =>
      rw [if_pos rfl] at h
      obtain ⟨idv, hidv, h⟩ := exc_bind_ok_inv h
      obtain ⟨pid, hpid, h⟩ := exc_bind_ok_inv h
      obtain ⟨pubv, hpubv, h⟩ := exc_bind_ok_inv h
      obtain ⟨hv, hhv, h⟩ := exc_bind_ok_inv h
      have holdP : List.Pairwise
          (fun a b : MarketEntry => pyEq a.handle b.handle = false)
          ((lookupA products pid).getD
            ⟨.str [], .str [], []⟩).markets := by
        rcases hold : lookupA products pid with _ | oldv
        · simp only [hold, Option.getD_none]
          exact List.Pairwise.nil
        · simp only [hold, Option.getD_some]
          exact hP _ (lookupA_mem hold)
      rcases hmi : lookupPy mbp pubv with _ | mi
      · simp only [hmi, exc_pure, Except.ok.injEq] at h
        rw [← h]
        intro kv hkv
        rcases mem_updA hkv with hm | hm
        · exact hP kv hm
        · rw [hm]
          exact holdP
      · simp only [hmi] at h
        split at h
        · rw [exc_pure] at h
          injection h with h2
          rw [← h2]
          intro kv hkv
          rcases mem_updA hkv with hm | hm
          · exact hP kv hm
          · rw [hm]
            exact holdP
        · rename_i hany
          rw [exc_pure] at h
          injection h with h2
          rw [← h2]
          intro kv hkv
          rcases mem_updA hkv with hm | hm
          · exact hP kv hm
          · rw [hm]
            rw [List.pairwise_append]
            refine ⟨holdP, List.pairwise_singleton _ _, ?_⟩
            intro a ha b hb
            rw [List.mem_singleton] at hb
            subst hb
            have hany2 := Bool.not_eq_true _ ▸ hany
            rw [List.any_eq_false] at hany2
            have := hany2 a ha
            simpa using this

/-- C10: every entry of the mapping returned by `load_market_data` has a
non-empty markets list whose handles are pairwise distinct (Python `==`;
the first market encountered per handle is kept) and which is sorted
ascending by handle; a product with no associated market is omitted from
the result. -/
theorem load_market_data_invariants {stream : List (Option JVal)}
    {res : List (Str × ProdInfo)} (h : load_market_data stream = .ok res) :
    ∀ p ∈ res, p.2.markets ≠ [] ∧
      List.Chain' (fun a b : MarketEntry =>
        jvLtE b.handle a.handle = .ok false) p.2.markets ∧
      List.Pairwise (fun a b : MarketEntry =>
        pyEq a.handle b.handle = false) p.2.markets := by
  simp only [load_market_data] at h
  obtain ⟨st1, h1, h⟩ := exc_bind_ok_inv h
  obtain ⟨prods, h2, h⟩ := exc_bind_ok_inv h
  obtain ⟨result, h3, h⟩ := exc_bind_ok_inv h
  simp only [exc_pure, Except.ok.injEq] at h
  subst h
  have hPP : ∀ kv ∈ prods, List.Pairwise
      (fun a b : MarketEntry => pyEq a.handle b.handle = false) kv.2.markets :=
    @foldlM_pres _ _ _
      (fun ps => ∀ kv ∈ ps, List.Pairwise
        (fun a b : MarketEntry => pyEq a.handle b.handle = false) kv.2.markets)
      stream []
      (fun kv hkv => absurd hkv (List.not_mem_nil kv))
      (fun b a b2 _ hb hstep => market_pass2_pairwise hstep hb) prods h2
  refine @foldlM_pres _ _ _
    (fun rs => ∀ p ∈ rs, p.2.markets ≠ [] ∧
      List.Chain' (fun a b : MarketEntry =>
        jvLtE b.handle a.handle = .ok false) p.2.markets ∧
      List.Pairwise (fun a b : MarketEntry =>
        pyEq a.handle b.handle = false) p.2.markets)
    prods [] ?_ ?_ result h3
  · exact fun p hp => absurd hp (List.not_mem_nil p)
  · intro b kv b2 hkv hbP hstep
    beta_reduce at hstep
    split at hstep
    · rename_i hcond
      obtain ⟨sorted, hsort, hstep⟩ := exc_bind_ok_inv hstep
      simp only [exc_pure, Except.ok.injEq] at hstep
      subst hstep
      intro p hp
      rcases List.mem_append.mp hp with hm | hm
      · exact hbP p hm
      · rw [List.mem_singleton] at hm
        subst hm
        obtain ⟨hchain, hperm⟩ := sortMarkets_ok hsort
        refine ⟨?_, hchain, ?_⟩
        · intro hnil
          have hnil2 : sorted = [] := hnil
          rw [hnil2] at hperm
          have h6 := List.Perm.eq_nil hperm.symm
          rw [h6] at hcond
          cases hcond
        · have hsym : ∀ {a b : MarketEntry}, pyEq a.handle b.handle = false →
              pyEq b.handle a.handle = false := by
            intro a b hab
            rw [pyEq_symm]
            exact hab
          exact (hperm.pairwise_iff hsym).mpr (hPP kv hkv)
    · simp only [exc_pure, Except.ok.injEq] at hstep
      subst hstep
      exact hbP

/-- C10 witness: a concrete stream with one product in two markets
(handles `us` and `ca`, deduplicated and sorted to `ca, us`) and one
product without markets (omitted). -/
theorem load_market_data_invariants_witness :
    ([⟨.str "ca".toList, .str "CA".toList, none⟩,
      ⟨.str "us".toList, .str "US".toList, none⟩] : List MarketEntry) ≠ [] ∧
    List.Chain' (fun a b : MarketEntry =>
      jvLtE b.handle a.handle = .ok false)
      [⟨.str "ca".toList, .str "CA".toList, none⟩,
       ⟨.str "us".toList, .str "US".toList, none⟩] ∧
    List.Pairwise (fun a b : MarketEntry =>
      pyEq a.handle b.handle = false)
      [⟨.str "ca".toList, .str "CA".toList, none⟩,
       ⟨.str "us".toList, .str "US".toList, none⟩] :=
  load_market_data_invariants
    (show load_market_data
      [some (.obj [("id".toList, .str "gid://shopify/Market/1".toList),
        ("__parentId".toList, .str "gid://shopify/Publication/1".toList),
        ("handle".toList, .str "us".toList),
        ("name".toList, .str "US".toList)]),
       some (.obj [("id".toList, .str "gid://shopify/Market/2".toList),
        ("__parentId".toList, .str "gid://shopify/Publication/2".toList),
        ("handle".toList, .str "ca".toList),
        ("name".toList, .str "CA".toList)]),
       some (.obj [("id".toList, .str "gid://shopify/Product/1".toList),
        ("__parentId".toList, .str "gid://shopify/Publication/1".toList),
        ("handle".toList, .str "p".toList)]),
       some (.obj [("id".toList, .str "gid://shopify/Product/1".toList),
        ("__parentId".toList, .str "gid://shopify/Publication/2".toList),
        ("handle".toList, .str "p".toList)]),
       some (.obj [("id".toList, .str "gid://shopify/Product/2".toList),
        ("__parentId".toList, .str "gid://shopify/Publication/9".toList),
        ("handle".toList, .str "q".toList)])] =
      .ok [("gid://shopify/Product/1".toList,
        (⟨.str "p".toList, .str [],
          [⟨.str "ca".toList, .str "CA".toList, none⟩,
           ⟨.str "us".toList, .str "US".toList, none⟩]⟩ : ProdInfo))]
      from rfl)
    ("gid://shopify/Product/1".toList,
      (⟨.str "p".toList, .str [],
        [⟨.str "ca".toList, .str "CA".toList, none⟩,
         ⟨.str "us".toList, .str "US".toList, none⟩]⟩ : ProdInfo))
    (List.mem_singleton.mpr rfl)
